import Mathlib

/-!
A verification development for the device-node linker of `src/udev/udev-node.c`.

The C code is shallowly embedded: the filesystem is a finite association list
from absolute paths (component lists, no leading empty component) to file
objects, the device database is a function from device identifiers to records,
and every function of the source file becomes a pure Lean function threading
the filesystem state.  Machine-level aspects that the linker only logs
(chmod/chown contents, security labels, timestamps) are outside the state;
syscall outcomes that depend on them (the final `futimens_opath`) are passed
in as oracle parameters.  Out-of-memory failures are not modelled.  Races with
other workers are modelled by an interference function `adv` applied once per
loop iteration of `link_update`, inside the window between the first `stat`
of the claim directory and the re-`stat` after the symlink write; sequential
claims instantiate `adv` with the identity.
-/

set_option maxRecDepth 100000

/-- Absolute paths as component lists: `/dev/sda` is `["dev", "sda"]`. -/
abbrev Fpath := List String

/-- A filesystem object.  Block and character device nodes carry their
`st_rdev` rendered as a `major:minor` string; symlinks carry their textual
target, itself stored as a relative-path component list. -/
inductive FsNode where
  | reg : FsNode
  | dir : FsNode
  | blk (devnum : String) : FsNode
  | chr (devnum : String) : FsNode
  | sym (target : List String) : FsNode
deriving DecidableEq, Repr

/-- The filesystem: an association list from paths to objects.  All operations
keep at most one entry per key (see `Fs.set` / `Fs.erase`). -/
abbrev Fs := List (Fpath × FsNode)

/-- Lookup of the object at a path (`lstat`-like: symlinks are not followed). -/
def Fs.find : Fs → Fpath → Option FsNode
  | [], _ => none
  | (q, n) :: rest, p => if q = p then some n else Fs.find rest p

/-- Remove every entry at a path. -/
def Fs.erase : Fs → Fpath → Fs
  | [], _ => []
  | (q, m) :: rest, p =>
      if q = p then Fs.erase rest p else (q, m) :: Fs.erase rest p

/-- Write the object at a path: replaces the first entry with that key in
place (dropping any stray duplicates after it) or appends a fresh entry. -/
def Fs.set : Fs → Fpath → FsNode → Fs
  | [], p, n => [(p, n)]
  | (q, m) :: rest, p, n =>
      if q = p then (q, n) :: Fs.erase rest p else (q, m) :: Fs.set rest p n

/-- The keys of the filesystem, in storage order. -/
def Fs.keys (fs : Fs) : List Fpath := fs.map Prod.fst

/-- `pathLe d p` holds when `d` is a (not necessarily proper) prefix of `p`:
the directory `d` lies on the path to `p`. -/
def pathLe : Fpath → Fpath → Bool
  | [], _ => true
  | _, [] => false
  | a :: as, b :: bs => if a = b then pathLe as bs else false

/-- If `p` is a direct child of directory `d`, its entry name; `none` otherwise. -/
def childOf (d p : Fpath) : Option String :=
  if pathLe d p ∧ p.length = d.length + 1 then (p.drop d.length).head? else none

/-- The directory listing of `d`: the entry names of all direct children
present in the filesystem, in storage order (the model's `readdir` order). -/
def childNames (fs : Fs) (d : Fpath) : List String :=
  fs.filterMap (fun e => childOf d e.1)

/-- The proper ancestors of a path below the root, shortest first:
for `/a/b/c` these are `/a` and `/a/b` (the root itself is never created). -/
def ancestors (p : Fpath) : List Fpath :=
  (List.range (p.length - 1)).map (fun k => p.take (k + 1))

/-- Create each directory of a list that is not yet present (`mkdir -p` step:
an existing object of any kind is left alone, matching `mkdir`'s `EEXIST`). -/
def mkdirList : Fs → List Fpath → Fs
  | fs, [] => fs
  | fs, q :: qs =>
      mkdirList (match fs.find q with | none => fs.set q .dir | some _ => fs) qs

/-- `mkdir_parents(p, 0755)`: create the missing ancestor directories of `p`.
A path component occupied by a non-directory is left alone; the `ENOTDIR`
failures this would cause in C are not modelled, and theorems about composite
runs restrict attention to states whose ancestor chains are clean. -/
def mkdirParents (fs : Fs) (p : Fpath) : Fs := mkdirList fs (ancestors p)

/-- `unlink(p)`, ignoring failure: removes a non-directory entry; a missing
path or a directory (`EISDIR`) leaves the state unchanged. -/
def unlinkPath (fs : Fs) (p : Fpath) : Fs :=
  match fs.find p with
  | none => fs
  | some .dir => fs
  | some _ => fs.erase p

/-- `rmdir` a chain of directories, longest first, stopping at the first one
that is missing, not a directory, or not empty (`rmdir` failure stops the
walk, as in `rmdir_parents`). -/
def rmdirChain : Fs → List Fpath → Fs
  | fs, [] => fs
  | fs, q :: qs =>
      if fs.find q = some .dir ∧ childNames fs q = [] then
        rmdirChain (fs.erase q) qs
      else fs

/-- `rmdir_parents(p, "/")`: best-effort removal of the now-empty parent
directories of `p`, from the innermost upward, stopping below the root. -/
def rmdirParents (fs : Fs) (p : Fpath) : Fs :=
  rmdirChain fs (ancestors p).reverse

/-- Error outcomes of the linker, following §7 of the specification.
`io` stands for any propagated `errno` other than the distinguished ones. -/
inductive Err where
  | badPath
  | conflict
  | io
  | notFound
  | tooManyRetries
deriving DecidableEq, Repr

/-- The adding/removing device, as exposed by the external `sd_device`
accessors used in `udev-node.c`.  `devnum` is the `major:minor` rendering of
`st_rdev`; `inited` is `sd_device_get_is_initialized`. -/
structure Device where
  id : String
  devname : Fpath
  subsystem : String
  devnum : String
  devprio : Int
  inited : Bool
  devlinks : List Fpath
deriving DecidableEq, Repr

/-- A device-database record, as read back by `sd_device_new_from_device_id`
followed by `sd_device_get_devname` and `device_get_devlink_priority`.
A claimant whose record lacks either field is skipped by the scanner, which
the model folds into the database returning `none`. -/
structure DbEntry where
  devname : Fpath
  devprio : Int
deriving DecidableEq, Repr

/-- The external device database: device identifier to record. -/
abbrev DB := String → Option DbEntry

/-- `d_name[0] == '.'` on the model's strings. -/
def startsDot (s : String) : Bool :=
  match s.data with
  | [] => false
  | c :: _ => c = '.'

/-- One escaped group of `escape_path`: `/` becomes the four bytes `\x2f`,
`\` becomes `\x5c`, anything else is copied verbatim. -/
def escGroup (c : Char) : List Char :=
  if c = '/' then ['\\', 'x', '2', 'f']
  else if c = '\\' then ['\\', 'x', '5', 'c']
  else [c]

/-- The unbounded escape transform underlying `escape_path`. -/
def esc : List Char → List Char
  | [] => []
  | c :: rest => escGroup c ++ esc rest

/-- `escape_path(src, dest, size)`: the escaped string if it fits in `size`
bytes including the terminator (`escaped length < size`), the empty string
otherwise (the C code resets `j = 0` and breaks at the first group that
would not leave room for the terminator). -/
def escape_path (src : String) (size : Nat) : String :=
  if (esc src.data).length < size then ⟨esc src.data⟩ else ""

/-- Left inverse of `esc`: a backslash always opens an escaped group, whose
third byte selects the original character. -/
def deesc : List Char → List Char
  | [] => []
  | c :: rest =>
      if c = '\\' then
        match rest with
        | _ :: d :: _ :: rest2 => (if d = '2' then '/' else '\\') :: deesc rest2
        | _ => []
      else c :: deesc rest

/-- Join relative-path components with `/`, the textual form `escape_path`
receives from `path_startswith(slink, "/dev")`. -/
def renderRel : Fpath → String
  | [] => ""
  | [s] => s
  | s :: rest => s ++ "/" ++ renderRel rest

/-- `path_startswith(slink, "/dev")`: the part after `/dev`, or `none`. -/
def devRest : Fpath → Option Fpath
  | "dev" :: rest => some rest
  | _ => none

/-- `path_make_relative(fromDir, to)` for two absolute paths: strip the common
prefix, then one `..` per remaining component of `fromDir` followed by the
remaining components of `to`; two equal paths yield `.`. -/
def path_make_relative : Fpath → Fpath → List String
  | [], [] => ["."]
  | [], t => t
  | _f :: fr, [] => List.replicate (fr.length + 1) ".."
  | f :: fr, t :: tr =>
      if f = t then path_make_relative fr tr
      else List.replicate (fr.length + 1) ".." ++ (t :: tr)

/-- The last component of a path (`""` for the root). -/
def lastD : Fpath → String
  | [] => ""
  | [s] => s
  | _ :: r => lastD r

/-- The staging path `<slink>.tmp-<id>` used for atomic replacement. -/
def tmpPathOf (slink : Fpath) (id : String) : Fpath :=
  slink.dropLast ++ [lastD slink ++ ".tmp-" ++ id]

/-- Outcome of `node_symlink`: `preserved` and `created` are the two `return 0`
paths (indistinguishable to the caller), `replaced` is `return 1`. -/
inductive SymResult where
  | preserved
  | created
  | replaced
  | err (e : Err)
deriving DecidableEq, Repr

/-- The staged-rename tail of `node_symlink` ("Atomically replace"): unlink a
stale staging file, create parents, write the symlink at the staging path and
`rename` it over `slink`.  `rename` onto a directory fails (the staging file
is then unlinked), as does the staging `symlink` when a directory sits at the
staging path (unlink of a directory fails, then `symlink` gets `EEXIST`). -/
def replaceAt (fs : Fs) (dev : Device) (target : List String) (slink : Fpath) :
    Fs × SymResult :=
  let tmp := tmpPathOf slink dev.id
  let fs0 := unlinkPath fs tmp
  match fs0.find tmp with
  | some _ => (fs0, .err .io)
  | none =>
      let fs1 := (mkdirParents fs0 tmp).set tmp (.sym target)
      match fs1.find slink with
      | some .dir => (fs1.erase tmp, .err .io)
      | _ => ((fs1.erase tmp).set slink (.sym target), .replaced)

/-- `node_symlink(dev, node, slink)`.  The relative target is computed from
`dirname(slink)`; a real device node at `slink` is never overwritten
(`Conflict`); an existing symlink with identical text is preserved (its label
refresh and `utimensat` touch are outside the model); a missing path gets a
direct creation with parents; anything else goes through `replaceAt`. -/
def node_symlink (fs : Fs) (dev : Device) (node slink : Fpath) : Fs × SymResult :=
  let target := path_make_relative slink.dropLast node
  match fs.find slink with
  | some (.blk _) => (fs, .err .conflict)
  | some (.chr _) => (fs, .err .conflict)
  | some (.sym buf) =>
      if buf = target then (fs, .preserved) else replaceAt fs dev target slink
  | some .reg => replaceAt fs dev target slink
  | some .dir => replaceAt fs dev target slink
  | none =>
      let fs1 := mkdirParents fs slink
      (fs1.set slink (.sym target), .created)

/-- The scan loop of `link_find_prioritized` over the claim directory's entry
names, threading the current `(target, priority)` pair.  An empty name breaks
out of the whole scan; a name starting with `.` or equal to the device's own
identifier is skipped; an unresolvable claimant is skipped; a resolvable one
replaces the target only when no target is set yet or its priority is
strictly greater than the current one. -/
def scanClaims (db : DB) (dev : Device) :
    Option Fpath → Int → List String → Option Fpath × Int
  | tgt, prio, [] => (tgt, prio)
  | tgt, prio, name :: rest =>
      if name = "" then (tgt, prio)
      else if startsDot name then scanClaims db dev tgt prio rest
      else if name = dev.id then scanClaims db dev tgt prio rest
      else
        match db name with
        | none => scanClaims db dev tgt prio rest
        | some e =>
            if tgt.isSome ∧ e.devprio ≤ prio then scanClaims db dev tgt prio rest
            else scanClaims db dev (some e.devname) e.devprio rest

/-- `link_find_prioritized(dev, add, stackdir, &target)`: in add mode the
scan is seeded with the adding device's devname and devlink priority.  When
`opendir` fails the seed (if any) wins outright; without a seed a missing
directory is `-ENOENT` and any other object at the path is another errno. -/
def link_find_prioritized (fs : Fs) (db : DB) (dev : Device) (add : Bool)
    (stackdir : Fpath) : Except Err Fpath :=
  let seedTgt : Option Fpath := if add then some dev.devname else none
  let seedPrio : Int := if add then dev.devprio else 0
  match fs.find stackdir with
  | some .dir =>
      match (scanClaims db dev seedTgt seedPrio (childNames fs stackdir)).1 with
      | some t => .ok t
      | none => .error .notFound
  | some _ => match seedTgt with
      | some t => .ok t
      | none => .error .io
  | none => match seedTgt with
      | some t => .ok t
      | none => .error .notFound

/-- The `stat` view the quiescence check compares across the symlink write:
the object at the claim directory path together with its listing (`st_mtim`
and `st_size` of a directory change exactly when entries come and go).
`none` is the zeroed sentinel left by `stat` returning `ENOENT`. -/
def snapDir (fs : Fs) (p : Fpath) : Option (FsNode × List String) :=
  (fs.find p).map (fun n => (n, childNames fs p))

/-- The `-ENOENT` branch of the loop: drop the stable link (missing-ok) and,
when the unlink succeeded, garbage-collect its empty parent chain up to `/`. -/
def removeSlink (fs : Fs) (slink : Fpath) : Fs :=
  match fs.find slink with
  | none => fs
  | some .dir => fs
  | some _ => rmdirParents (fs.erase slink) slink

/-- How one pass of the retry loop ended: `broke i` for the `break`s and for
running off the end (then `i` is the budget), `failed e` for the `return`s
from inside the loop. -/
inductive LoopOut where
  | broke (i : Nat)
  | failed (e : Err)
deriving DecidableEq, Repr

/-- The fixpoint loop of `link_update`, with `fuel` counting the iterations
left of the retry budget and `i` the C loop counter.  Each iteration stats
the claim directory, suffers the environment's interference `adv`, picks the
winner, writes the symlink (an error undoes the claim file and breaks; a
replacement retries unconditionally) and breaks when a valid first stat is
matched by the re-stat. -/
def luLoop (db : DB) (dev : Device) (slink : Fpath) (add : Bool)
    (dirname filename : Fpath) (adv : Nat → Fs → Fs) :
    Nat → Nat → Fs → Fs × LoopOut
  | 0, i, fs => (fs, .broke i)
  | fuel + 1, i, fs =>
      let st1 := snapDir fs dirname
      let fsa := adv i fs
      match link_find_prioritized fsa db dev add dirname with
      | .error .notFound => (removeSlink fsa slink, .broke i)
      | .error e => (fsa, .failed e)
      | .ok w =>
          match node_symlink fsa dev w slink with
          | (fs1, .err _) => (fs1.erase filename, .broke i)
          | (fs1, .replaced) =>
              luLoop db dev slink add dirname filename adv fuel (i + 1) fs1
          | (fs1, _) =>
              match st1 with
              | some s1 =>
                  if snapDir fs1 dirname = some s1 then (fs1, .broke i)
                  else luLoop db dev slink add dirname filename adv fuel (i + 1) fs1
              | none =>
                  luLoop db dev slink add dirname filename adv fuel (i + 1) fs1

/-- The claim-index directory for an escaped link name: `path_join` of
`/run/udev/links/` and the escaped name.  An empty escape (overflow)
contributes no component, so the join degenerates to the index root. -/
def stackDirOf (rest : Fpath) : Fpath :=
  let enc := escape_path (renderRel rest) 4096
  if enc = "" then ["run", "udev", "links"] else ["run", "udev", "links", enc]

/-- The claim file `/run/udev/links/<escaped>/<device-id>` for a stable link. -/
def claimFileOf (dev : Device) (slink : Fpath) : Fpath :=
  stackDirOf (slink.drop 1) ++ [dev.id]

/-- The add-mode claim write: `mkdir_parents` then
`open(filename, O_WRONLY|O_CREAT|O_CLOEXEC|O_TRUNC|O_NOFOLLOW, 0444)`.
Truncating an existing regular (or device) file changes nothing observable;
`O_NOFOLLOW` on a symlink and `open` on a directory fail fatally.  The C
retry on `ENOENT` (directory removed between `mkdir` and `open`) cannot fire
in a sequential step. -/
def claimAdd (fs : Fs) (filename : Fpath) : Except Err Fs :=
  let fs1 := mkdirParents fs filename
  match fs1.find filename with
  | none => .ok (fs1.set filename .reg)
  | some .reg => .ok fs1
  | some (.blk _) => .ok fs1
  | some (.chr _) => .ok fs1
  | some (.sym _) => .error .io
  | some .dir => .error .io

/-- The remove-mode claim drop: `unlink(filename)` and, only if that
succeeded, a best-effort `rmdir(dirname)`. -/
def claimRemove (fs : Fs) (dirname filename : Fpath) : Fs :=
  match fs.find filename with
  | none => fs
  | some .dir => fs
  | some _ =>
      let fs1 := fs.erase filename
      if fs1.find dirname = some .dir ∧ childNames fs1 dirname = [] then
        fs1.erase dirname
      else fs1

/-- The loop-and-return tail of `link_update`: run the budget of
`LINK_UPDATE_MAX_RETRIES = 128` iterations (1 when the device is not yet
initialized in the database), then `return i < LINK_UPDATE_MAX_RETRIES ? 0 :
-ELOOP` — the comparison is against 128, not against the budget. -/
def link_update_core (fs : Fs) (db : DB) (dev : Device) (slink : Fpath)
    (add : Bool) (dirname filename : Fpath) (adv : Nat → Fs → Fs) :
    Fs × Except Err Unit :=
  match luLoop db dev slink add dirname filename adv
      (if dev.inited then 128 else 1) 0 fs with
  | (fs2, .failed e) => (fs2, .error e)
  | (fs2, .broke i) => (fs2, if i < 128 then .ok () else .error .tooManyRetries)

/-- `link_update(dev, slink, add)`: reject links outside `/dev`, derive the
claim directory and file (the result of `escape_path` is not checked), add or
remove the claim, then run the fixpoint loop. -/
def link_update (fs : Fs) (db : DB) (dev : Device) (slink : Fpath) (add : Bool)
    (adv : Nat → Fs → Fs) : Fs × Except Err Unit :=
  match devRest slink with
  | none => (fs, .error .badPath)
  | some rest =>
      let dirname := stackDirOf rest
      let filename := dirname ++ [dev.id]
      if add then
        match claimAdd fs filename with
        | .error e => (fs, .error e)
        | .ok fs1 => link_update_core fs1 db dev slink add dirname filename adv
      else
        link_update_core (claimRemove fs dirname filename) db dev slink add
          dirname filename adv

/-- The file-type letter of an object, for the identity check of
`node_permissions_apply`. -/
def nodeKind : FsNode → Nat
  | .blk _ => 0
  | .chr _ => 1
  | .reg => 2
  | .dir => 3
  | .sym _ => 4

/-- The `st_rdev` of an object (`""` for non-device objects, which never
matches a device's `major:minor`). -/
def nodeRdev : FsNode → String
  | .blk d => d
  | .chr d => d
  | _ => ""

/-- `node_permissions_apply(dev, apply_mac, mode, uid, gid, seclabels)`.
`mode = none` is `MODE_INVALID` (preserve; the file-type comparison is then
skipped).  A missing node is a benign race; a node of the wrong type or with
the wrong `st_rdev` belongs to another device and is left alone.  Permission,
ownership and label changes act on metadata outside the model and their
failures are only logged; the function's result is the result of the final
`futimens_opath` timestamp touch, passed in as the oracle `futimens_r`. -/
def node_permissions_apply (fs : Fs) (dev : Device) (mode : Option Nat)
    (futimens_r : Except Err Unit) : Except Err Unit :=
  match fs.find dev.devname with
  | none => .ok ()
  | some (.sym _) => .error .io
  | some n =>
      if (mode.isSome ∧ nodeKind n ≠ (if dev.subsystem = "block" then 0 else 1))
          ∨ nodeRdev n ≠ dev.devnum then
        .ok ()
      else futimens_r

/-- `xsprintf_dev_num_path_from_sd_device`: the canonical
`/dev/{block,char}/<major>:<minor>` path of a device. -/
def devNumPath (dev : Device) : Fpath :=
  ["dev", if dev.subsystem = "block" then "block" else "char", dev.devnum]

/-- `udev_node_add`: apply permissions first (its error aborts everything),
then unconditionally write the canonical `/dev/{block,char}/` symlink
(result ignored), then run `link_update(…, add)` for every declared stable
link, logging and swallowing per-link errors. -/
def udev_node_add (fs : Fs) (db : DB) (dev : Device) (mode : Option Nat)
    (futimens_r : Except Err Unit) (adv : Nat → Fs → Fs) :
    Fs × Except Err Unit :=
  match node_permissions_apply fs dev mode futimens_r with
  | .error e => (fs, .error e)
  | .ok () =>
      let fs1 := (node_symlink fs dev dev.devname (devNumPath dev)).1
      let fs2 := dev.devlinks.foldl
        (fun acc l => (link_update acc db dev l true adv).1) fs1
      (fs2, .ok ())

/-- `udev_node_remove`: run `link_update(…, remove)` for every declared
stable link (errors logged and swallowed), then unlink the canonical
`/dev/{block,char}/` symlink. -/
def udev_node_remove (fs : Fs) (db : DB) (dev : Device)
    (adv : Nat → Fs → Fs) : Fs × Except Err Unit :=
  let fs1 := dev.devlinks.foldl
    (fun acc l => (link_update acc db dev l false adv).1) fs
  (unlinkPath fs1 (devNumPath dev), .ok ())

/-- The identity interference: no concurrent workers. -/
def advId : Nat → Fs → Fs := fun _ fs => fs

deriving instance DecidableEq for Except

/-- Objects at a stable-link path from which a plain `link_update` add run
completes with a published symlink: nothing (create), a symlink (preserve or
replace) or a regular file (replace).  A real device node would conflict and
a directory would make the final `rename` fail. -/
def topOk : Option FsNode → Bool
  | none => true
  | some (.sym _) => true
  | some .reg => true
  | _ => false

/-- A well-formed stable link `/dev/<something nonempty>`. -/
def linkShape (l : Fpath) : Bool :=
  match devRest l with
  | some (_ :: _) => true
  | _ => false

/-- Is the object a real device node (`S_ISBLK || S_ISCHR`)? -/
def realNode : Option FsNode → Bool
  | some (.blk _) => true
  | some (.chr _) => true
  | _ => false

/-- Is the object a symlink? -/
def symNode : Option FsNode → Bool
  | some (.sym _) => true
  | _ => false

/-- Objects at the claim-file path on which the `O_CREAT|O_TRUNC|O_NOFOLLOW`
open succeeds. -/
def claimOpenOk : Option FsNode → Bool
  | none => true
  | some .reg => true
  | some (.blk _) => true
  | some (.chr _) => true
  | _ => false

/-- Scenario device for the scanner claims: disk `A` of S1. -/
def devScan : Device :=
  ⟨"b8:0", ["dev", "sda"], "block", "8:0", 0, true, []⟩

/-- Scenario database: only `b8:16` (disk `B`, priority 10) resolves. -/
def dbScan : DB :=
  fun s => if s = "b8:16" then some ⟨["dev", "sdb"], 10⟩ else none

/-- Conflict scenario (S5): a real character device sits at the stable link. -/
def fsConf : Fs :=
  [(["dev", "sda"], .blk "8:0"),
   (["dev", "disk", "by-label", "ROOT"], .chr "1:3")]

/-- The S5 device: disk `A` claiming `/dev/disk/by-label/ROOT`. -/
def devConf : Device :=
  ⟨"b8:0", ["dev", "sda"], "block", "8:0", 0, true,
   [["dev", "disk", "by-label", "ROOT"]]⟩

/-- The S5 database: only the adding device itself is on record. -/
def dbConf : DB :=
  fun s => if s = "b8:0" then some ⟨["dev", "sda"], 0⟩ else none

/-- The S5 stable link. -/
def slConf : Fpath := ["dev", "disk", "by-label", "ROOT"]

/-- Retry-budget scenario: an uninitialized device whose stable link holds a
stale symlink, so the single loop iteration ends in `replaced` and the budget
is exhausted without an early exit. -/
def devBudget : Device :=
  ⟨"b8:0", ["dev", "sda"], "block", "8:0", 0, false, [["dev", "foo"]]⟩

/-- Retry-budget scenario database: nothing resolves. -/
def dbBudget : DB := fun _ => none

/-- Retry-budget scenario filesystem: the link exists with the wrong target. -/
def fsBudget : Fs :=
  [(["dev", "sda"], .blk "8:0"), (["dev"], .dir),
   (["dev", "foo"], .sym ["bogus"])]

/-- Overflow scenario: a 5000-byte link name, whose escape cannot fit in the
`PATH_MAX`-sized buffer of `link_update`. -/
def aBig : String := ⟨List.replicate 5000 'a'⟩

/-- The overflowing stable link `/dev/<aBig>`. -/
def slBig : Fpath := ["dev", aBig]

/-- The device claiming the overflowing link. -/
def devBig : Device :=
  ⟨"b8:0", ["dev", "sda"], "block", "8:0", 0, true, [slBig]⟩

/-- Overflow scenario database: nothing resolves. -/
def dbBig : DB := fun _ => none

/-- Overflow scenario filesystem: just the device node. -/
def fsBig : Fs := [(["dev", "sda"], .blk "8:0")]

/-- Empty-index removal scenario: the claim directory is gone, only the stale
stable link remains. -/
def fsGone : Fs :=
  [(["dev"], .dir), (["dev", "sda"], .blk "8:0"),
   (["dev", "foo"], .sym ["sda"])]

/-- The overflow scenario state right after the claim file is written into
the degenerate index root. -/
def fsBigPost : Fs :=
  [(["dev", "sda"], .blk "8:0"),
   (["run"], .dir), (["run", "udev"], .dir), (["run", "udev", "links"], .dir),
   (["run", "udev", "links", "b8:0"], .reg)]

/-- The overflow scenario state after the parents of the overflowing link are
created. -/
def fsBigMk : Fs :=
  [(["dev", "sda"], .blk "8:0"),
   (["run"], .dir), (["run", "udev"], .dir), (["run", "udev", "links"], .dir),
   (["run", "udev", "links", "b8:0"], .reg), (["dev"], .dir)]

/-- The retry-budget scenario state right after the claim file is written. -/
def fsBudgetPost : Fs :=
  [(["dev", "sda"], .blk "8:0"), (["dev"], .dir),
   (["dev", "foo"], .sym ["bogus"]),
   (["run"], .dir), (["run", "udev"], .dir), (["run", "udev", "links"], .dir),
   (["run", "udev", "links", "foo"], .dir),
   (["run", "udev", "links", "foo", "b8:0"], .reg)]

/-- Idempotence scenario device: disk `A` with two stable links. -/
def devIdem : Device :=
  ⟨"b8:0", ["dev", "sda"], "block", "8:0", 0, true,
   [["dev", "disk", "by-id", "X"], ["dev", "disk", "by-label", "R"]]⟩

/-- Idempotence scenario database: only the adding device is on record. -/
def dbIdem : DB :=
  fun s => if s = "b8:0" then some ⟨["dev", "sda"], 0⟩ else none

/-- Idempotence scenario filesystem: just the device node. -/
def fsIdem : Fs := [(["dev", "sda"], .blk "8:0")]

/-! ## Basic lemmas about the filesystem model -/

theorem find_set_self (fs : Fs) (p : Fpath) (n : FsNode) :
    (fs.set p n).find p = some n := by
  induction fs with
  | nil => simp [Fs.set, Fs.find]
  | cons e rest ih =>
    by_cases h : e.1 = p
    · simp [Fs.set, Fs.find, h]
    · simp [Fs.set, Fs.find, h, ih]

theorem find_erase_self (fs : Fs) (p : Fpath) : (fs.erase p).find p = none := by
  induction fs with
  | nil => simp [Fs.erase, Fs.find]
  | cons e rest ih =>
    by_cases h : e.1 = p
    · simp [Fs.erase, h, ih]
    · simp [Fs.erase, Fs.find, h, ih]

theorem find_erase_ne (fs : Fs) (p q : Fpath) (h : q ≠ p) :
    (fs.erase p).find q = fs.find q := by
  have hpq : p ≠ q := fun hc => h hc.symm
  induction fs with
  | nil => simp [Fs.erase]
  | cons e rest ih =>
    by_cases he : e.1 = p
    · have h2 : e.1 ≠ q := he ▸ hpq
      simp [Fs.erase, he, ih, Fs.find, h2, hpq]
    · by_cases hq : e.1 = q
      · simp [Fs.erase, he, Fs.find, hq, h]
      · simp [Fs.erase, he, Fs.find, hq, ih]

theorem find_set_ne (fs : Fs) (p q : Fpath) (n : FsNode) (h : q ≠ p) :
    (fs.set p n).find q = fs.find q := by
  have hpq : p ≠ q := fun hc => h hc.symm
  induction fs with
  | nil => simp [Fs.set, Fs.find, hpq]
  | cons e rest ih =>
    by_cases he : e.1 = p
    · have h2 : e.1 ≠ q := he ▸ hpq
      simp [Fs.set, he, Fs.find, h2, hpq, find_erase_ne rest p q h]
    · by_cases hq : e.1 = q
      · simp [Fs.set, he, Fs.find, hq, h]
      · simp [Fs.set, he, Fs.find, hq, ih]

theorem find_mkdirList_not_mem (qs : List Fpath) (fs : Fs) (p : Fpath)
    (h : p ∉ qs) : (mkdirList fs qs).find p = fs.find p := by
  induction qs generalizing fs with
  | nil => simp [mkdirList]
  | cons q qs ih =>
    have hne : p ≠ q := fun hc => h (hc ▸ List.mem_cons_self q qs)
    have hrest : p ∉ qs := fun hc => h (List.mem_cons_of_mem q hc)
    cases hq : fs.find q with
    | none => simp [mkdirList, hq, ih _ hrest, find_set_ne fs q p .dir hne]
    | some n => simp [mkdirList, hq, ih _ hrest]

theorem find_mkdirList_some (qs : List Fpath) (fs : Fs) (p : Fpath) (n : FsNode)
    (h : fs.find p = some n) : (mkdirList fs qs).find p = some n := by
  induction qs generalizing fs with
  | nil => simpa [mkdirList] using h
  | cons q qs ih =>
    cases hq : fs.find q with
    | none =>
      have hne : p ≠ q := fun hc => by rw [hc, hq] at h; exact Option.noConfusion h
      simp only [mkdirList, hq]
      exact ih _ (by rw [find_set_ne fs q p .dir hne]; exact h)
    | some m => simp [mkdirList, hq]; exact ih _ h

theorem head_take (p : Fpath) (k : Nat) : (p.take (k + 1)).head? = p.head? := by
  cases p <;> simp

theorem mem_ancestors_head {p q : Fpath} (h : q ∈ ancestors p) :
    q.head? = p.head? := by
  rcases List.mem_map.mp h with ⟨k, _, rfl⟩
  exact head_take p k

theorem mem_ancestors_length {p q : Fpath} (h : q ∈ ancestors p) :
    q.length < p.length := by
  rcases List.mem_map.mp h with ⟨k, hk, rfl⟩
  have hk' : k < p.length - 1 := List.mem_range.mp hk
  simp only [List.length_take]
  omega

theorem ne_of_head_ne {p q : Fpath} (h : p.head? ≠ q.head?) : p ≠ q :=
  fun hc => h (hc ▸ rfl)

theorem stackDirOf_head (rest : Fpath) : (stackDirOf rest).head? = some "run" := by
  unfold stackDirOf
  by_cases h : escape_path (renderRel rest) 4096 = "" <;> simp [h]

theorem lastD_concat (l : List String) (s : String) : lastD (l ++ [s]) = s := by
  induction l with
  | nil => rfl
  | cons a l ih =>
    cases l with
    | nil => rfl
    | cons b l' => simpa [lastD] using ih

theorem tmpPathOf_ne (slink : Fpath) (id : String) : tmpPathOf slink id ≠ slink := by
  intro h
  have h1 := congrArg lastD h
  rw [tmpPathOf, lastD_concat] at h1
  have h2 := congrArg String.length h1
  rw [String.length_append, String.length_append] at h2
  have : (".tmp-" : String).length = 5 := rfl
  omega

theorem realNode_symNode (o : Option FsNode) (h : realNode o = true) :
    symNode o = false := by
  cases o with
  | none => simp [realNode] at h
  | some n => cases n <;> simp_all [realNode, symNode]

theorem find_unlinkPath_ne (fs : Fs) (t p : Fpath) (h : p ≠ t) :
    (unlinkPath fs t).find p = fs.find p := by
  unfold unlinkPath
  cases hf : fs.find t with
  | none => rfl
  | some n => cases n <;> simp [find_erase_ne fs t p h]

theorem node_symlink_real (fs : Fs) (dev : Device) (node slink : Fpath)
    (h : realNode (fs.find slink) = true) :
    node_symlink fs dev node slink = (fs, .err .conflict) := by
  cases hf : fs.find slink with
  | none => rw [hf] at h; simp [realNode] at h
  | some n =>
    cases n
    case blk d => simp [node_symlink, hf]
    case chr d => simp [node_symlink, hf]
    all_goals (rw [hf] at h; simp [realNode] at h)

theorem realNode_some (o : Option FsNode) (h : realNode o = true) :
    ∃ m, o = some m := by
  cases o with
  | none => simp [realNode] at h
  | some m => exact ⟨m, rfl⟩

theorem find_mkdirParents_some (fs : Fs) (p q : Fpath) (n : FsNode)
    (h : fs.find q = some n) : (mkdirParents fs p).find q = some n :=
  find_mkdirList_some _ _ _ _ h

theorem unlinkPath_find_self_real (fs : Fs) (t : Fpath)
    (h : realNode (fs.find t) = true) : (unlinkPath fs t).find t = none := by
  unfold unlinkPath
  cases hf : fs.find t with
  | none => rw [hf] at h; cases h
  | some m =>
    cases m
    case blk d => exact find_erase_self fs t
    case chr d => exact find_erase_self fs t
    all_goals (rw [hf] at h; simp [realNode] at h)

theorem replaceAt_no_clobber (fs : Fs) (dev : Device) (target : List String)
    (slink p : Fpath) (hp : realNode (fs.find p) = true)
    (hs : realNode (fs.find slink) = false) :
    symNode ((replaceAt fs dev target slink).1.find p) = false := by
  by_cases hps : p = slink
  · rw [hps] at hp; rw [hp] at hs; cases hs
  · cases ht : (unlinkPath fs (tmpPathOf slink dev.id)).find (tmpPathOf slink dev.id) with
    | some n =>
      by_cases hpt : p = tmpPathOf slink dev.id
      · exfalso
        subst hpt
        rw [unlinkPath_find_self_real fs _ hp] at ht
        exact Option.noConfusion ht
      · simp only [replaceAt, ht]
        rw [find_unlinkPath_ne fs _ p hpt]
        exact realNode_symNode _ hp
    | none =>
      by_cases hpt : p = tmpPathOf slink dev.id
      · subst hpt
        simp only [replaceAt, ht]
        split
        · simp [find_erase_self, symNode]
        · rw [find_set_ne _ _ _ _ hps, find_erase_self]
          rfl
      · have h0 : (unlinkPath fs (tmpPathOf slink dev.id)).find p = fs.find p :=
          find_unlinkPath_ne fs _ p hpt
        rcases realNode_some _ hp with ⟨m, hm⟩
        have h1 : ((mkdirParents (unlinkPath fs (tmpPathOf slink dev.id)) (tmpPathOf slink dev.id)).set
            (tmpPathOf slink dev.id) (.sym target)).find p = some m := by
          rw [find_set_ne _ _ _ _ hpt]
          exact find_mkdirParents_some _ _ _ _ (h0.trans hm)
        simp only [replaceAt, ht]
        split
        · rw [find_erase_ne _ _ _ hpt, h1]
          exact realNode_symNode _ (hm ▸ hp)
        · rw [find_set_ne _ _ _ _ hps, find_erase_ne _ _ _ hpt, h1]
          exact realNode_symNode _ (hm ▸ hp)

/-- C3: a real block or character device node at `slink` makes `node_symlink`
fail with `Conflict` and leave the filesystem untouched; and on no input does
`node_symlink` turn a path holding a real device node into a symlink. -/
theorem c3_real_node_never_clobbered (fs : Fs) (dev : Device)
    (node slink : Fpath) :
    (realNode (fs.find slink) = true →
      node_symlink fs dev node slink = (fs, .err .conflict)) ∧
    ∀ p, realNode (fs.find p) = true →
      symNode ((node_symlink fs dev node slink).1.find p) = false := by
  refine ⟨node_symlink_real fs dev node slink, ?_⟩
  intro p hp
  cases hf : fs.find slink with
  | none =>
    have hps : p ≠ slink := fun hc => by rw [hc, hf] at hp; cases hp
    rcases realNode_some _ hp with ⟨m, hm⟩
    simp only [node_symlink, hf]
    rw [find_set_ne _ _ _ _ hps, find_mkdirParents_some _ _ _ _ hm]
    exact realNode_symNode _ (hm ▸ hp)
  | some n =>
    cases n
    case blk d => rw [node_symlink_real fs dev node slink (by rw [hf]; rfl)]
                  exact realNode_symNode _ hp
    case chr d => rw [node_symlink_real fs dev node slink (by rw [hf]; rfl)]
                  exact realNode_symNode _ hp
    case reg =>
      simp only [node_symlink, hf]
      exact replaceAt_no_clobber fs dev _ slink p hp (by rw [hf]; rfl)
    case dir =>
      simp only [node_symlink, hf]
      exact replaceAt_no_clobber fs dev _ slink p hp (by rw [hf]; rfl)
    case sym buf =>
      simp only [node_symlink, hf]
      split
      · exact realNode_symNode _ hp
      · exact replaceAt_no_clobber fs dev _ slink p hp (by rw [hf]; rfl)

/-- Witness for C3 at the S5 scenario: a character device at the stable link. -/
theorem c3_witness :
    realNode (fsConf.find slConf) = true ∧
    node_symlink fsConf devConf ["dev", "sda"] slConf = (fsConf, .err .conflict) ∧
    symNode ((node_symlink fsConf devConf ["dev", "sda"] slConf).1.find slConf) = false := by
  have h := c3_real_node_never_clobbered fsConf devConf ["dev", "sda"] slConf
  exact ⟨by decide, h.1 (by decide), h.2 slConf (by decide)⟩

/-- C4: in the prioritized scan, with a target already set (as the seeded
adding device always is) a resolvable candidate takes over exactly when its
priority is strictly greater — ties keep the incumbent; with no target yet,
the first resolvable candidate is adopted unconditionally. -/
theorem c4_strict_priority (db : DB) (dev : Device) (t : Fpath) (prio : Int)
    (name : String) (rest : List String) (e : DbEntry)
    (h1 : name ≠ "") (h2 : startsDot name = false) (h3 : name ≠ dev.id)
    (h4 : db name = some e) :
    scanClaims db dev (some t) prio (name :: rest) =
      (if prio < e.devprio then
        scanClaims db dev (some e.devname) e.devprio rest
       else scanClaims db dev (some t) prio rest) ∧
    scanClaims db dev none prio (name :: rest) =
      scanClaims db dev (some e.devname) e.devprio rest := by
  constructor
  · by_cases hle : e.devprio ≤ prio
    · rw [if_neg (by omega : ¬ prio < e.devprio)]
      simp [scanClaims, h1, h2, h3, h4, hle]
    · rw [if_pos (by omega : prio < e.devprio)]
      simp [scanClaims, h1, h2, h3, h4, hle]
  · simp [scanClaims, h1, h2, h3, h4]

/-- Witness for C4: candidate `b8:16` with priority 10 beats the incumbent
seed at priority 0, in both the seeded and the unseeded scan. -/
theorem c4_witness :
    scanClaims dbScan devScan (some ["dev", "sda"]) 0 ["b8:16"] =
      (some ["dev", "sdb"], 10) ∧
    scanClaims dbScan devScan none 0 ["b8:16"] = (some ["dev", "sdb"], 10) := by
  have h := c4_strict_priority dbScan devScan ["dev", "sda"] 0 "b8:16" []
    ⟨["dev", "sdb"], 10⟩ (by decide) (by decide) (by decide) rfl
  refine ⟨?_, ?_⟩
  · rw [h.1, if_pos (by decide)]; rfl
  · rw [h.2]; rfl

/-- C8 counterexample: an empty entry name terminates the scan, so the later
claimant `b8:16` — which, scanned alone, would take the target with its
priority 10 — is never considered.  Under the claim the enumeration would
have continued and the winner would be `/dev/sdb`. -/
theorem c8_counterexample :
    scanClaims dbScan devScan (some ["dev", "sda"]) 0 ["", "b8:16"] =
      (some ["dev", "sda"], 0) ∧
    dbScan "b8:16" = some ⟨["dev", "sdb"], 10⟩ ∧
    scanClaims dbScan devScan (some ["dev", "sda"]) 0 ["b8:16"] =
      (some ["dev", "sdb"], 10) := by
  refine ⟨rfl, rfl, by decide⟩

/-- C8 amended: an entry with an empty name ends the enumeration (the scan
returns its current state, considering no later entry), while an entry whose
name begins with `.` is skipped and the scan continues over the rest. -/
theorem c8_amended (db : DB) (dev : Device) (tgt : Option Fpath) (prio : Int)
    (name : String) (rest : List String) :
    scanClaims db dev tgt prio ("" :: rest) = (tgt, prio) ∧
    (startsDot name = true →
      scanClaims db dev tgt prio (name :: rest) =
        scanClaims db dev tgt prio rest) := by
  constructor
  · simp [scanClaims]
  · intro h
    have hne : name ≠ "" := by
      intro e; rw [e] at h; simp [startsDot] at h
    simp [scanClaims, hne, h]

/-- Witness for C8 amended: the break on `""` and the skip on `"."`. -/
theorem c8_amended_witness :
    scanClaims dbScan devScan (some ["dev", "sda"]) 0 ("" :: ["b8:16"]) =
      (some ["dev", "sda"], 0) ∧
    scanClaims dbScan devScan (some ["dev", "sda"]) 0 ("." :: ["b8:16"]) =
      scanClaims dbScan devScan (some ["dev", "sda"]) 0 ["b8:16"] :=
  ⟨(c8_amended dbScan devScan (some ["dev", "sda"]) 0 "." ["b8:16"]).1,
   (c8_amended dbScan devScan (some ["dev", "sda"]) 0 "." ["b8:16"]).2 rfl⟩

theorem deesc_cons_ne (c : Char) (l : List Char) (h : ¬ c = '\\') :
    deesc (c :: l) = c :: deesc l := by
  unfold deesc
  simp [h]
  exact deesc.eq_def l

theorem deesc_esc (s : List Char) : deesc (esc s) = s := by
  induction s with
  | nil => rfl
  | cons c r ih =>
    by_cases h1 : c = '/'
    · subst h1; simp [esc, escGroup, deesc, ih]
    · by_cases h2 : c = '\\'
      · subst h2; simp [esc, escGroup, deesc, ih]
      · simp only [esc, escGroup, h1, h2, if_false, List.singleton_append]
        rw [deesc_cons_ne c _ h2, ih]

theorem esc_inj {s1 s2 : List Char} (h : esc s1 = esc s2) : s1 = s2 := by
  have h2 := congrArg deesc h
  rwa [deesc_esc, deesc_esc] at h2

/-- C10: `escape_path` is injective on inputs whose encodings are non-empty
(neither overflowed): every backslash in an output opens one of the escaped
groups `\x2f`/`\x5c`, so the original string is recoverable. -/
theorem c10_escape_injective (s1 s2 : String) (size : Nat)
    (h1 : escape_path s1 size ≠ "") (h2 : escape_path s2 size ≠ "")
    (he : escape_path s1 size = escape_path s2 size) : s1 = s2 := by
  unfold escape_path at h1 h2 he
  by_cases f1 : (esc s1.data).length < size
  · by_cases f2 : (esc s2.data).length < size
    · rw [if_pos f1, if_pos f2] at he
      have hdata : esc s1.data = esc s2.data := congrArg String.data he
      exact congrArg String.mk (esc_inj hdata)
    · rw [if_neg f2] at h2; exact absurd rfl h2
  · rw [if_neg f1] at h1; exact absurd rfl h1

/-- Witness for C10 at a concrete non-overflowing input. -/
theorem c10_witness : escape_path "a" 10 ≠ "" ∧ ("a" : String) = "a" :=
  ⟨by decide, c10_escape_injective "a" "a" 10 (by decide) (by decide) rfl⟩

/-- C9: on the path where the device node matches its device (right type
bits, right `st_rdev`), `node_permissions_apply` returns the result of the
final `futimens` timestamp touch; hence a failing touch makes
`udev_node_add` return that error with the filesystem untouched — before the
canonical `/dev/{block,char}` symlink is written or any devlink is
processed. -/
theorem c9_futimens_error_aborts_add (fs : Fs) (db : DB) (dev : Device)
    (mode : Option Nat) (adv : Nat → Fs → Fs) (e : Err) (n : FsNode)
    (hn : fs.find dev.devname = some n)
    (hkind : nodeKind n = (if dev.subsystem = "block" then 0 else 1))
    (hrdev : nodeRdev n = dev.devnum) :
    node_permissions_apply fs dev mode (.error e) = .error e ∧
    udev_node_add fs db dev mode (.error e) adv = (fs, .error e) := by
  have hnotsym : ∀ t, n ≠ .sym t := by
    intro t hc
    rw [hc] at hkind
    by_cases hb : dev.subsystem = "block" <;> simp [nodeKind, hb] at hkind
  have hnpa : node_permissions_apply fs dev mode (.error e) = .error e := by
    unfold node_permissions_apply
    rw [hn]
    have hc : ¬((mode.isSome ∧
        nodeKind n ≠ (if dev.subsystem = "block" then 0 else 1)) ∨
        nodeRdev n ≠ dev.devnum) := by
      push_neg
      exact ⟨fun _ => hkind, hrdev⟩
    cases n
    case sym t => exact absurd rfl (hnotsym t)
    all_goals (simp only [node_permissions_apply, hn]; rw [if_neg hc])
  refine ⟨hnpa, ?_⟩
  unfold udev_node_add
  rw [hnpa]

/-- Witness for C9: a matching block device node and a failing `futimens`. -/
theorem c9_witness :
    node_permissions_apply [(["dev", "sda"], .blk "8:0")] devScan (some 432)
      (.error .io) = .error .io ∧
    udev_node_add [(["dev", "sda"], .blk "8:0")] dbScan devScan (some 432)
      (.error .io) advId = ([(["dev", "sda"], .blk "8:0")], .error .io) :=
  c9_futimens_error_aborts_add [(["dev", "sda"], .blk "8:0")] dbScan devScan
    (some 432) advId .io (.blk "8:0") rfl (by decide) (by decide)

/-- C7: whenever the prioritized lookup reports the claim index empty
(`-ENOENT`), the loop iteration unlinks the stable link (missing-ok), with a
best-effort removal of the now-empty parent chain up to `/`, and breaks; at
the head of the loop this makes `link_update`'s core exit with success. -/
theorem c7_empty_index_removes_link (db : DB) (dev : Device)
    (slink : Fpath) (add : Bool) (dirname filename : Fpath)
    (adv : Nat → Fs → Fs) (fs : Fs)
    (h0 : link_find_prioritized (adv 0 fs) db dev add dirname =
      .error .notFound) :
    (∀ fuel i fs', link_find_prioritized (adv i fs') db dev add dirname =
        .error .notFound →
      luLoop db dev slink add dirname filename adv (fuel + 1) i fs' =
        (removeSlink (adv i fs') slink, .broke i)) ∧
    link_update_core fs db dev slink add dirname filename adv =
      (removeSlink (adv 0 fs) slink, .ok ()) := by
  have hiter : ∀ fuel i fs', link_find_prioritized (adv i fs') db dev add dirname =
      .error .notFound →
      luLoop db dev slink add dirname filename adv (fuel + 1) i fs' =
        (removeSlink (adv i fs') slink, .broke i) := by
    intro fuel i fs' h
    simp [luLoop, h]
  refine ⟨hiter, ?_⟩
  unfold link_update_core
  by_cases hi : dev.inited
  · rw [show (if dev.inited = true then (128 : Nat) else 1) = 127 + 1 from by
      rw [if_pos hi], hiter 127 0 fs h0]
    rfl
  · rw [show (if dev.inited = true then (128 : Nat) else 1) = 0 + 1 from by
      rw [if_neg hi], hiter 0 0 fs h0]
    rfl

/-- Witness for C7: remove-mode on a vanished claim directory; the stale link
is unlinked and the core returns success. -/
theorem c7_witness :
    link_find_prioritized (advId 0 fsGone) dbScan devScan false
      (stackDirOf ["foo"]) = .error .notFound ∧
    link_update_core fsGone dbScan devScan ["dev", "foo"] false
      (stackDirOf ["foo"]) (claimFileOf devScan ["dev", "foo"]) advId =
      (removeSlink (advId 0 fsGone) ["dev", "foo"], .ok ()) :=
  ⟨by decide,
   (c7_empty_index_removes_link dbScan devScan ["dev", "foo"] false
      (stackDirOf ["foo"]) (claimFileOf devScan ["dev", "foo"]) advId fsGone
      (by decide)).2⟩

theorem devRest_eq {slink rest : Fpath} (h : devRest slink = some rest) :
    slink = "dev" :: rest := by
  cases slink with
  | nil => simp [devRest] at h
  | cons a l =>
    by_cases ha : a = "dev"
    · subst ha
      simp [devRest] at h
      rw [h]
    · simp [devRest, ha] at h

theorem find_mkdirParents_self (fs : Fs) (p : Fpath) :
    (mkdirParents fs p).find p = fs.find p :=
  find_mkdirList_not_mem _ _ _
    (fun hmem => absurd (mem_ancestors_length hmem) (lt_irrefl _))

theorem scanClaims_isSome (db : DB) (dev : Device) (t : Fpath) (p : Int)
    (names : List String) :
    ∃ t' p', scanClaims db dev (some t) p names = (some t', p') := by
  induction names generalizing t p with
  | nil => exact ⟨t, p, rfl⟩
  | cons name rest ih =>
    by_cases h1 : name = ""
    · exact ⟨t, p, by simp [scanClaims, h1]⟩
    · by_cases h2 : startsDot name
      · simpa [scanClaims, h1, h2] using ih t p
      · by_cases h3 : name = dev.id
        · subst h3
          simpa [scanClaims, h1, h2] using ih t p
        · cases hdb : db name with
          | none => simpa [scanClaims, h1, h2, h3, hdb] using ih t p
          | some e =>
            by_cases h4 : e.devprio ≤ p
            · simpa [scanClaims, h1, h2, h3, hdb, h4] using ih t p
            · simpa [scanClaims, h1, h2, h3, hdb, h4] using ih e.devname e.devprio

theorem lfp_add_some (fs : Fs) (db : DB) (dev : Device) (stackdir : Fpath) :
    ∃ w, link_find_prioritized fs db dev true stackdir = .ok w := by
  unfold link_find_prioritized
  cases hf : fs.find stackdir with
  | none => exact ⟨dev.devname, by simp⟩
  | some n =>
    cases n
    case dir =>
      obtain ⟨t', p', hs⟩ :=
        scanClaims_isSome db dev dev.devname dev.devprio (childNames fs stackdir)
      exact ⟨t', by simp [hs]⟩
    all_goals exact ⟨dev.devname, by simp⟩

theorem head_dev_ne_run {p q : Fpath} (hp : p.head? = some "dev")
    (hq : q.head? = some "run") : p ≠ q :=
  ne_of_head_ne (by rw [hp, hq]; simp)

theorem claimFileOf_head (dev : Device) (slink : Fpath) :
    (claimFileOf dev slink).head? = some "run" := by
  have hh := stackDirOf_head (slink.drop 1)
  unfold claimFileOf
  cases hsd : stackDirOf (slink.drop 1) with
  | nil => rw [hsd] at hh; cases hh
  | cons a l =>
    rw [hsd] at hh
    simp at hh
    rw [hh]
    rfl

theorem claimAdd_of_ok (fs : Fs) (filename : Fpath)
    (h : claimOpenOk (fs.find filename) = true) :
    ∃ fs1, claimAdd fs filename = .ok fs1 ∧
      (∀ q, q ≠ filename → q ∉ ancestors filename → fs1.find q = fs.find q) := by
  have hself : (mkdirParents fs filename).find filename = fs.find filename :=
    find_mkdirParents_self fs filename
  have hframe : ∀ q, q ∉ ancestors filename →
      (mkdirParents fs filename).find q = fs.find q :=
    fun q hq => find_mkdirList_not_mem _ _ _ hq
  cases hf : fs.find filename with
  | none =>
    refine ⟨(mkdirParents fs filename).set filename .reg, ?_, ?_⟩
    · simp only [claimAdd]
      rw [hself, hf]
    · intro q hq1 hq2
      rw [find_set_ne _ _ _ _ hq1, hframe q hq2]
  | some m =>
    cases m
    case sym t => rw [hf] at h; cases h
    case dir => rw [hf] at h; cases h
    all_goals {
      refine ⟨mkdirParents fs filename, ?_, fun q _ hq2 => hframe q hq2⟩
      simp only [claimAdd]
      rw [hself, hf]
    }

theorem luLoop_symlink_err (db : DB) (dev : Device) (slink : Fpath)
    (add : Bool) (dirname filename : Fpath) (adv : Nat → Fs → Fs)
    (fuel i : Nat) (fs fsa fs1 : Fs) (w : Fpath) (e : Err)
    (hfsa : adv i fs = fsa)
    (hw : link_find_prioritized fsa db dev add dirname = .ok w)
    (hns : node_symlink fsa dev w slink = (fs1, .err e)) :
    luLoop db dev slink add dirname filename adv (fuel + 1) i fs =
      (fs1.erase filename, .broke i) := by
  simp only [luLoop]
  rw [hfsa]
  simp only [hw, hns]

theorem link_update_core_break0 (fs : Fs) (db : DB) (dev : Device)
    (slink : Fpath) (add : Bool) (dirname filename : Fpath)
    (adv : Nat → Fs → Fs) (fs' : Fs)
    (h : ∀ fuel, luLoop db dev slink add dirname filename adv (fuel + 1) 0 fs =
      (fs', .broke 0)) :
    link_update_core fs db dev slink add dirname filename adv =
      (fs', .ok ()) := by
  unfold link_update_core
  by_cases hi : dev.inited
  · rw [show (if dev.inited = true then (128 : Nat) else 1) = 127 + 1 from by
      rw [if_pos hi], h 127]
    rfl
  · rw [show (if dev.inited = true then (128 : Nat) else 1) = 0 + 1 from by
      rw [if_neg hi], h 0]
    rfl

/-- C1 amended: when `node_symlink` fails inside the loop (here: a real
device node at the stable link, the S5 conflict), `link_update` does undo the
claim file and stop — but it exits through the loop `break` and returns
success (0), not the error; the stable link is left untouched, and `AddNode`,
seeing no error, completes normally over all devlinks (the conflict is only
logged inside `node_symlink`). -/
theorem c1_symlink_error_swallowed (fs : Fs) (db : DB) (dev : Device)
    (slink rest : Fpath) (mode : Option Nat)
    (hdev : devRest slink = some rest)
    (hreal : realNode (fs.find slink) = true)
    (hclaim : claimOpenOk (fs.find (claimFileOf dev slink)) = true) :
    (link_update fs db dev slink true advId).2 = .ok () ∧
    (link_update fs db dev slink true advId).1.find (claimFileOf dev slink) =
      none ∧
    (link_update fs db dev slink true advId).1.find slink = fs.find slink ∧
    (node_permissions_apply fs dev mode (.ok ()) = .ok () →
      (udev_node_add fs db dev mode (.ok ()) advId).2 = .ok ()) := by
  have hsl := devRest_eq hdev
  subst hsl
  have hfn : claimFileOf dev ("dev" :: rest) = stackDirOf rest ++ [dev.id] := rfl
  rw [hfn] at hclaim ⊢
  obtain ⟨fs1, hca, hframe⟩ := claimAdd_of_ok fs (stackDirOf rest ++ [dev.id]) hclaim
  have hslhead : ("dev" :: rest).head? = some "dev" := rfl
  have hfnhead : (stackDirOf rest ++ [dev.id]).head? = some "run" := by
    rw [← hfn]; exact claimFileOf_head dev _
  have hslne : ("dev" :: rest) ≠ stackDirOf rest ++ [dev.id] :=
    head_dev_ne_run hslhead hfnhead
  have hslnotanc : ("dev" :: rest) ∉ ancestors (stackDirOf rest ++ [dev.id]) := by
    intro hm
    have h1 := mem_ancestors_head hm
    rw [hslhead, hfnhead] at h1
    simp at h1
  have hfind1 : fs1.find ("dev" :: rest) = fs.find ("dev" :: rest) :=
    hframe _ hslne hslnotanc
  obtain ⟨w, hw⟩ := lfp_add_some fs1 db dev (stackDirOf rest)
  have hns : node_symlink fs1 dev w ("dev" :: rest) = (fs1, .err .conflict) :=
    node_symlink_real _ _ _ _ (by rw [hfind1]; exact hreal)
  have hdr : devRest ("dev" :: rest) = some rest := rfl
  have hlu : link_update fs db dev ("dev" :: rest) true advId =
      (fs1.erase (stackDirOf rest ++ [dev.id]), .ok ()) := by
    simp only [link_update, hdr]
    rw [if_pos trivial, hca]
    exact link_update_core_break0 _ _ _ _ _ _ _ _ _
      (fun fuel => luLoop_symlink_err db dev _ true (stackDirOf rest)
        (stackDirOf rest ++ [dev.id]) advId fuel 0 fs1 fs1 fs1 w .conflict rfl hw hns)
  refine ⟨by rw [hlu], ?_, ?_, ?_⟩
  · rw [hlu]
    exact find_erase_self _ _
  · rw [hlu]
    rw [find_erase_ne _ _ _ hslne, hfind1]
  · intro h
    simp only [udev_node_add, h]

/-- C1 counterexample: in the S5 state a character device sits at the stable
link, so `node_symlink` fails with `Conflict` inside the loop — yet
`link_update` returns success (`0`), not the error, having removed its claim
file; the device node is untouched. -/
theorem c1_counterexample :
    realNode (fsConf.find slConf) = true ∧
    (link_update fsConf dbConf devConf slConf true advId).2 = .ok () ∧
    (link_update fsConf dbConf devConf slConf true advId).1.find
      (claimFileOf devConf slConf) = none ∧
    (link_update fsConf dbConf devConf slConf true advId).1.find slConf =
      some (.chr "1:3") := by
  refine ⟨by decide, by decide, by decide, by decide⟩

/-- Witness for C1 amended at the S5 scenario. -/
theorem c1_witness :
    (link_update fsConf dbConf devConf slConf true advId).2 = .ok () ∧
    (link_update fsConf dbConf devConf slConf true advId).1.find
      (claimFileOf devConf slConf) = none ∧
    (link_update fsConf dbConf devConf slConf true advId).1.find slConf =
      fsConf.find slConf ∧
    (udev_node_add fsConf dbConf devConf (some 432) (.ok ()) advId).2 =
      .ok () := by
  have h := c1_symlink_error_swallowed fsConf dbConf devConf slConf
    ["disk", "by-label", "ROOT"] (some 432) rfl (by decide) (by decide)
  exact ⟨h.1, h.2.1, h.2.2.1, h.2.2.2 (by decide)⟩

theorem lfp_error_cases (fs : Fs) (db : DB) (dev : Device) (add : Bool)
    (stackdir : Fpath) (e : Err)
    (h : link_find_prioritized fs db dev add stackdir = .error e) :
    e = .notFound ∨ e = .io := by
  unfold link_find_prioritized at h
  repeat' split at h
  all_goals first
    | exact Or.inl h.symm
    | exact Or.inr h.symm
    | (injection h with h1; exact Or.inl h1.symm)
    | (injection h with h1; exact Or.inr h1.symm)
    | (cases hsc : (scanClaims db dev (some dev.devname) dev.devprio
          (childNames fs stackdir)).1 with
        | some t => simp [hsc] at h
        | none => simp [hsc] at h; exact Or.inl h.symm)
    | (cases hsc : (scanClaims db dev none 0 (childNames fs stackdir)).1 with
        | some t => simp [hsc] at h
        | none => simp [hsc] at h; exact Or.inl h.symm)
    | simp at h

theorem claimAdd_error_io (fs : Fs) (f : Fpath) (e : Err)
    (h : claimAdd fs f = .error e) : e = .io := by
  simp only [claimAdd] at h
  split at h
  all_goals first
    | exact h.symm
    | (injection h with h1; exact h1.symm)
    | simp at h

theorem luLoop_broke_le (db : DB) (dev : Device) (slink : Fpath) (add : Bool)
    (dirname filename : Fpath) (adv : Nat → Fs → Fs) :
    ∀ fuel i fs fs' j,
      luLoop db dev slink add dirname filename adv fuel i fs = (fs', .broke j) →
      j ≤ i + fuel := by
  intro fuel
  induction fuel with
  | zero =>
    intro i fs fs' j h
    simp [luLoop] at h
    omega
  | succ fuel ih =>
    intro i fs fs' j h
    simp only [luLoop] at h
    cases hlfp : link_find_prioritized (adv i fs) db dev add dirname with
    | error e2 =>
      rw [hlfp] at h
      cases e2 <;> simp at h <;> omega
    | ok w =>
      simp only [hlfp] at h
      cases hns : node_symlink (adv i fs) dev w slink with
      | mk fs1 res =>
        cases res with
        | err e => simp only [hns] at h; simp at h; omega
        | replaced => simp only [hns] at h; have := ih _ _ _ _ h; omega
        | preserved =>
          simp only [hns] at h
          cases hst : snapDir fs dirname with
          | some s1 =>
            simp only [hst] at h
            split at h
            · simp at h; omega
            · have := ih _ _ _ _ h; omega
          | none => simp only [hst] at h; have := ih _ _ _ _ h; omega
        | created =>
          simp only [hns] at h
          cases hst : snapDir fs dirname with
          | some s1 =>
            simp only [hst] at h
            split at h
            · simp at h; omega
            · have := ih _ _ _ _ h; omega
          | none => simp only [hst] at h; have := ih _ _ _ _ h; omega

theorem luLoop_failed_io (db : DB) (dev : Device) (slink : Fpath) (add : Bool)
    (dirname filename : Fpath) (adv : Nat → Fs → Fs) :
    ∀ fuel i fs fs' e,
      luLoop db dev slink add dirname filename adv fuel i fs = (fs', .failed e) →
      e = .io := by
  intro fuel
  induction fuel with
  | zero =>
    intro i fs fs' e h
    simp [luLoop] at h
  | succ fuel ih =>
    intro i fs fs' e h
    simp only [luLoop] at h
    cases hlfp : link_find_prioritized (adv i fs) db dev add dirname with
    | error e2 =>
      rw [hlfp] at h
      rcases lfp_error_cases _ _ _ _ _ _ hlfp with h2 | h2 <;> subst h2 <;>
        simp at h
      exact h.2.symm
    | ok w =>
      simp only [hlfp] at h
      cases hns : node_symlink (adv i fs) dev w slink with
      | mk fs1 res =>
        cases res with
        | err e3 => simp only [hns] at h; simp at h
        | replaced => simp only [hns] at h; exact ih _ _ _ _ h
        | preserved =>
          simp only [hns] at h
          cases hst : snapDir fs dirname with
          | some s1 =>
            simp only [hst] at h
            split at h
            · simp at h
            · exact ih _ _ _ _ h
          | none => simp only [hst] at h; exact ih _ _ _ _ h
        | created =>
          simp only [hns] at h
          cases hst : snapDir fs dirname with
          | some s1 =>
            simp only [hst] at h
            split at h
            · simp at h
            · exact ih _ _ _ _ h
          | none => simp only [hst] at h; exact ih _ _ _ _ h

theorem core_uninit_ne_eloop (fs : Fs) (db : DB) (dev : Device) (slink : Fpath)
    (add : Bool) (dirname filename : Fpath) (adv : Nat → Fs → Fs)
    (hi : dev.inited = false) :
    (link_update_core fs db dev slink add dirname filename adv).2 ≠
      .error .tooManyRetries := by
  unfold link_update_core
  cases hl : luLoop db dev slink add dirname filename adv
      (if dev.inited then 128 else 1) 0 fs with
  | mk fs2 out =>
    cases out with
    | failed e =>
      have he := luLoop_failed_io db dev slink add dirname filename adv _ _ _ _ _ hl
      subst he
      simp
    | broke i =>
      have hle := luLoop_broke_le db dev slink add dirname filename adv _ _ _ _ _ hl
      rw [hi] at hle
      simp only [Bool.false_eq_true, if_false] at hle
      have hlt : i < 128 := by omega
      simp [hlt]

/-- C2 amended: `link_update` returns `TooManyRetries` (`-ELOOP`) exactly when
the retry loop consumed the full `LINK_UPDATE_MAX_RETRIES = 128` budget — the
final comparison is against 128, not against the budget actually granted, so
an uninitialized device that exhausts its budget of a single iteration
returns success (0), never `-ELOOP`. -/
theorem c2_retry_exhaustion (fs : Fs) (db : DB) (dev : Device) (slink : Fpath)
    (add : Bool) (dirname filename : Fpath) (adv : Nat → Fs → Fs) :
    ((link_update_core fs db dev slink add dirname filename adv).2 =
        .error .tooManyRetries ↔
      dev.inited = true ∧
        (luLoop db dev slink add dirname filename adv
            (if dev.inited then 128 else 1) 0 fs).2 = .broke 128) ∧
    (dev.inited = false →
      (link_update fs db dev slink add adv).2 ≠ .error .tooManyRetries) := by
  constructor
  · unfold link_update_core
    cases hl : luLoop db dev slink add dirname filename adv
        (if dev.inited then 128 else 1) 0 fs with
    | mk fs2 out =>
      cases out with
      | failed e =>
        have he := luLoop_failed_io db dev slink add dirname filename adv _ _ _ _ _ hl
        subst he
        constructor
        · intro hc; simp at hc
        · rintro ⟨_, hb⟩
          simp at hb
      | broke i =>
        have hle := luLoop_broke_le db dev slink add dirname filename adv _ _ _ _ _ hl
        by_cases hlt : i < 128
        · constructor
          · intro hc; simp [hlt] at hc
          · rintro ⟨_, hb⟩
            simp at hb
            omega
        · cases hi : dev.inited
          · rw [hi] at hle
            simp only [Bool.false_eq_true, if_false] at hle
            omega
          · rw [hi] at hle
            simp only [if_true] at hle
            have h128 : i = 128 := by omega
            subst h128
            constructor
            · intro _
              exact ⟨rfl, rfl⟩
            · intro _
              simp [hlt]
  · intro hi
    unfold link_update
    cases hdr : devRest slink with
    | none => simp
    | some rest =>
      by_cases ha : add = true
      · subst ha
        simp only [if_true]
        cases hca : claimAdd fs (stackDirOf rest ++ [dev.id]) with
        | error e =>
          have := claimAdd_error_io _ _ _ hca
          subst this
          simp
        | ok fs1 =>
          exact core_uninit_ne_eloop fs1 db dev slink true _ _ adv hi
      · simp only [Bool.not_eq_true] at ha
        subst ha
        simp only [Bool.false_eq_true, if_false]
        exact core_uninit_ne_eloop _ db dev slink false _ _ adv hi

/-- C2 counterexample: an uninitialized device whose stable link holds a stale
symlink; the single-iteration budget is exhausted through the `replaced`
branch (`.broke 1`, no early exit), yet `link_update` returns success, where
the claim requires `TooManyRetries`. -/
theorem c2_counterexample :
    devBudget.inited = false ∧
    claimAdd fsBudget (claimFileOf devBudget ["dev", "foo"]) = .ok fsBudgetPost ∧
    (luLoop dbBudget devBudget ["dev", "foo"] true (stackDirOf ["foo"])
      (claimFileOf devBudget ["dev", "foo"]) advId 1 0 fsBudgetPost).2 =
      .broke 1 ∧
    (link_update fsBudget dbBudget devBudget ["dev", "foo"] true advId).2 =
      .ok () := by
  refine ⟨rfl, by decide, by decide, by decide⟩

/-- Witness for C2 at the retry-budget scenario. -/
theorem c2_witness :
    (link_update fsBudget dbBudget devBudget ["dev", "foo"] true advId).2 ≠
      .error .tooManyRetries :=
  (c2_retry_exhaustion fsBudget dbBudget devBudget ["dev", "foo"] true
    (stackDirOf ["foo"]) (claimFileOf devBudget ["dev", "foo"]) advId).2 rfl

theorem esc_replicate (n : Nat) :
    esc (List.replicate n 'a') = List.replicate n 'a' := by
  have h1 : ('a' : Char) ≠ '/' := by decide
  have h2 : ('a' : Char) ≠ '\\' := by decide
  induction n with
  | zero => rfl
  | succ n ih => simp [List.replicate_succ, esc, escGroup, h1, h2, ih]

/-- C6 amended: when escaping the stripped link name would exceed the buffer
capacity less one, `escape_path` does produce the empty string — but
`link_update` never checks the result: the empty component degenerates the
`path_join` to `/run/udev/links` itself, and the claim-index and symlink
operations proceed against that directory instead of being rejected. -/
theorem c6_overflow_ignored (fs : Fs) (db : DB) (dev : Device)
    (slink rest : Fpath) (adv : Nat → Fs → Fs)
    (h1 : devRest slink = some rest)
    (h2 : 4096 ≤ (esc (renderRel rest).data).length) :
    escape_path (renderRel rest) 4096 = "" ∧
    stackDirOf rest = ["run", "udev", "links"] ∧
    link_update fs db dev slink true adv =
      (match claimAdd fs (["run", "udev", "links"] ++ [dev.id]) with
       | .error e => (fs, .error e)
       | .ok fs1 =>
           link_update_core fs1 db dev slink true ["run", "udev", "links"]
             (["run", "udev", "links"] ++ [dev.id]) adv) := by
  have hesc : escape_path (renderRel rest) 4096 = "" := by
    unfold escape_path
    rw [if_neg (by omega)]
  have hsd : stackDirOf rest = ["run", "udev", "links"] := by
    simp [stackDirOf, hesc]
  refine ⟨hesc, hsd, ?_⟩
  have hsl := devRest_eq h1
  subst hsl
  have hdr : devRest ("dev" :: rest) = some rest := rfl
  simp only [link_update, hdr]
  rw [if_pos trivial, hsd]

/-- Witness for C6 amended at the 5000-byte link name. -/
theorem c6_witness :
    escape_path (renderRel [aBig]) 4096 = "" ∧
    stackDirOf [aBig] = ["run", "udev", "links"] ∧
    link_update fsBig dbBig devBig slBig true advId =
      (match claimAdd fsBig (["run", "udev", "links"] ++ [devBig.id]) with
       | .error e => (fsBig, .error e)
       | .ok fs1 =>
           link_update_core fs1 dbBig devBig slBig true
             ["run", "udev", "links"] (["run", "udev", "links"] ++ [devBig.id])
             advId) :=
  c6_overflow_ignored fsBig dbBig devBig slBig [aBig] advId rfl (by
    have ha : (renderRel [aBig]).data = List.replicate 5000 'a' := rfl
    rw [ha, esc_replicate, List.length_replicate]
    omega)

theorem node_symlink_create (fs : Fs) (dev : Device) (node slink : Fpath)
    (h : fs.find slink = none) :
    node_symlink fs dev node slink =
      ((mkdirParents fs slink).set slink
        (.sym (path_make_relative slink.dropLast node)), .created) := by
  simp only [node_symlink, h]

theorem node_symlink_preserve (fs : Fs) (dev : Device) (node slink : Fpath)
    (t : List String) (h : fs.find slink = some (.sym t))
    (ht : t = path_make_relative slink.dropLast node) :
    node_symlink fs dev node slink = (fs, .preserved) := by
  simp only [node_symlink, h]
  rw [if_pos ht]

theorem luLoop_quiesce (db : DB) (dev : Device) (slink : Fpath) (add : Bool)
    (dirname filename : Fpath) (adv : Nat → Fs → Fs) (fuel i : Nat)
    (fs fsa fs1 : Fs) (w : Fpath) (res : SymResult)
    (hfsa : adv i fs = fsa)
    (hw : link_find_prioritized fsa db dev add dirname = .ok w)
    (hns : node_symlink fsa dev w slink = (fs1, res))
    (hres : res = .preserved ∨ res = .created)
    (hst : snapDir fs dirname ≠ none)
    (hst2 : snapDir fs1 dirname = snapDir fs dirname) :
    luLoop db dev slink add dirname filename adv (fuel + 1) i fs =
      (fs1, .broke i) := by
  simp only [luLoop]
  rw [hfsa]
  cases hs1 : snapDir fs dirname with
  | none => exact absurd hs1 hst
  | some s1 =>
    rcases hres with rfl | rfl <;>
      simp only [hw, hns, hs1, hst2, if_pos rfl] <;>
      rw [if_pos trivial]

/-- C6 counterexample: for the 5000-byte link name the escape overflows and
yields the empty string, yet `link_update` performs the claim-index write —
into `/run/udev/links` itself — and the symlink write, and returns success;
nothing treats the overflow as fatal for the link. -/
theorem c6_counterexample :
    escape_path (renderRel (slBig.drop 1)) 4096 = "" ∧
    (link_update fsBig dbBig devBig slBig true advId).2 = .ok () ∧
    (link_update fsBig dbBig devBig slBig true advId).1.find
      (["run", "udev", "links"] ++ [devBig.id]) = some .reg ∧
    (link_update fsBig dbBig devBig slBig true advId).1.find slBig =
      some (.sym ["sda"]) := by
  have hesc : escape_path (renderRel [aBig]) 4096 = "" := by
    unfold escape_path
    rw [if_neg]
    have ha : (renderRel [aBig]).data = List.replicate 5000 'a' := rfl
    rw [ha, esc_replicate, List.length_replicate]
    omega
  have hsd : stackDirOf [aBig] = ["run", "udev", "links"] := by
    simp [stackDirOf, hesc]
  have hdr : devRest slBig = some [aBig] := rfl
  have hca : claimAdd fsBig (stackDirOf [aBig] ++ [devBig.id]) = .ok fsBigPost := by
    rw [hsd]; decide
  have hmk : mkdirParents fsBigPost slBig = fsBigMk := by decide
  have htg : path_make_relative slBig.dropLast ["dev", "sda"] = ["sda"] := by decide
  have hns : node_symlink fsBigPost devBig ["dev", "sda"] slBig =
      (fsBigMk.set slBig (.sym ["sda"]), .created) := by
    rw [node_symlink_create fsBigPost devBig ["dev", "sda"] slBig (by decide)]
    rw [hmk, htg]
  have hlu : link_update fsBig dbBig devBig slBig true advId =
      (fsBigMk.set slBig (.sym ["sda"]), .ok ()) := by
    simp only [link_update, hdr]
    rw [if_pos trivial, hca, hsd]
    apply link_update_core_break0
    intro fuel
    exact luLoop_quiesce dbBig devBig slBig true ["run", "udev", "links"]
      (["run", "udev", "links"] ++ [devBig.id]) advId fuel 0 fsBigPost fsBigPost
      (fsBigMk.set slBig (.sym ["sda"])) ["dev", "sda"] .created rfl
      (by decide) hns (Or.inr rfl) (by decide) (by decide)
  refine ⟨hesc, by rw [hlu], ?_, ?_⟩
  · rw [hlu, find_set_ne _ _ _ _ (by decide)]
    decide
  · rw [hlu, find_set_self]

theorem pathLe_head_eq : ∀ {d q : Fpath}, pathLe d q = true →
    d = [] ∨ d.head? = q.head? := by
  intro d q h
  cases d with
  | nil => exact Or.inl rfl
  | cons a as =>
    cases q with
    | nil => simp [pathLe] at h
    | cons b bs =>
      refine Or.inr ?_
      by_cases hab : a = b
      · simp [hab]
      · simp [pathLe, hab] at h

theorem pathLe_take : ∀ {d q : Fpath}, pathLe d q = true →
    q.take d.length = d := by
  intro d
  induction d with
  | nil => intro q _; rfl
  | cons a as ih =>
    intro q h
    cases q with
    | nil => simp [pathLe] at h
    | cons b bs =>
      by_cases hab : a = b
      · subst hab
        simp only [pathLe, if_pos rfl] at h
        simp [List.take, ih h]
      · simp [pathLe, hab] at h

theorem pathLe_append_self : ∀ (d x : Fpath), pathLe d (d ++ x) = true := by
  intro d
  induction d with
  | nil => intro x; simp [pathLe]
  | cons a as ih => intro x; simp [pathLe, ih]

theorem childOf_eq_some_iff (d q : Fpath) (s : String) :
    childOf d q = some s ↔ q = d ++ [s] := by
  constructor
  · intro h
    unfold childOf at h
    by_cases hc : pathLe d q = true ∧ q.length = d.length + 1
    · rw [if_pos hc] at h
      have htk := pathLe_take hc.1
      have hq : q = q.take d.length ++ q.drop d.length := (List.take_append_drop _ _).symm
      have hlen : (q.drop d.length).length = 1 := by
        rw [List.length_drop]
        omega
      cases hd : q.drop d.length with
      | nil => rw [hd] at hlen; simp at hlen
      | cons x xs =>
        cases xs with
        | nil =>
          rw [hd] at h
          simp at h
          rw [hq, htk, hd, h]
        | cons y ys => rw [hd] at hlen; simp at hlen
    · rw [if_neg hc] at h
      cases h
  · intro h
    subst h
    unfold childOf
    rw [if_pos ⟨pathLe_append_self d [s], by simp⟩]
    simp

theorem childOf_none_of_len {d q : Fpath} (h : q.length ≠ d.length + 1) :
    childOf d q = none := by
  unfold childOf
  rw [if_neg (fun hc => h hc.2)]

theorem childOf_none_of_head {d q : Fpath} (hd : d.head? = some "run")
    (hq : q.head? = some "dev") : childOf d q = none := by
  unfold childOf
  rw [if_neg]
  rintro ⟨h1, _⟩
  rcases pathLe_head_eq h1 with h2 | h2
  · rw [h2] at hd; cases hd
  · rw [hd, hq] at h2; simp at h2

theorem childNames_erase_of_none {d p : Fpath} (h : childOf d p = none) :
    ∀ fs : Fs, childNames (fs.erase p) d = childNames fs d := by
  intro fs
  induction fs with
  | nil => rfl
  | cons e rest ih =>
    by_cases he : e.1 = p
    · simp only [Fs.erase, if_pos he, ih]
      simp [childNames, he, h]
    · simp only [Fs.erase, if_neg he]
      simp only [childNames, List.filterMap_cons] at ih ⊢
      cases childOf d e.1 <;> simp [ih]

theorem childNames_set_of_none {d p : Fpath} {n : FsNode}
    (h : childOf d p = none) :
    ∀ fs : Fs, childNames (fs.set p n) d = childNames fs d := by
  intro fs
  induction fs with
  | nil => simp [childNames, Fs.set, h]
  | cons e rest ih =>
    by_cases he : e.1 = p
    · simp only [Fs.set, if_pos he]
      simp only [childNames, List.filterMap_cons]
      rw [he] at *
      rw [h]
      exact childNames_erase_of_none h rest
    · simp only [Fs.set, if_neg he]
      simp only [childNames, List.filterMap_cons] at ih ⊢
      cases childOf d e.1 <;> simp [ih]

theorem childNames_mkdirList_of_none {d : Fpath} :
    ∀ (qs : List Fpath) (fs : Fs), (∀ q ∈ qs, childOf d q = none) →
      childNames (mkdirList fs qs) d = childNames fs d := by
  intro qs
  induction qs with
  | nil => intro fs _; rfl
  | cons q qs ih =>
    intro fs h
    have hq : childOf d q = none := h q (List.mem_cons_self q qs)
    have hrest : ∀ r ∈ qs, childOf d r = none :=
      fun r hr => h r (List.mem_cons_of_mem q hr)
    cases hf : fs.find q with
    | none =>
      simp only [mkdirList, hf]
      rw [ih _ hrest, childNames_set_of_none hq]
    | some m => simp only [mkdirList, hf]; exact ih _ hrest

theorem find_none_not_mem (fs : Fs) (p : Fpath) (h : fs.find p = none) :
    p ∉ fs.keys := by
  induction fs with
  | nil => simp [Fs.keys]
  | cons e rest ih =>
    simp only [Fs.find] at h
    by_cases he : e.1 = p
    · rw [if_pos he] at h; cases h
    · rw [if_neg he] at h
      intro hmem
      simp only [Fs.keys, List.map_cons] at hmem
      rcases List.mem_cons.mp hmem with h1 | h1
      · exact he h1.symm
      · exact ih h h1

theorem find_some_mem (fs : Fs) (p : Fpath) (n : FsNode)
    (h : fs.find p = some n) : p ∈ fs.keys := by
  induction fs with
  | nil => cases h
  | cons e rest ih =>
    simp only [Fs.find] at h
    by_cases he : e.1 = p
    · simp only [Fs.keys, List.map_cons]
      rw [← he]
      exact List.mem_cons_self _ _
    · rw [if_neg he] at h
      exact List.mem_cons_of_mem _ (ih h)

theorem erase_of_find_none (fs : Fs) (p : Fpath) (h : fs.find p = none) :
    fs.erase p = fs := by
  induction fs with
  | nil => rfl
  | cons e rest ih =>
    simp only [Fs.find] at h
    by_cases he : e.1 = p
    · rw [if_pos he] at h; cases h
    · rw [if_neg he] at h
      simp [Fs.erase, he, ih h]

theorem keys_set_of_find_none (fs : Fs) (p : Fpath) (n : FsNode)
    (h : fs.find p = none) : (fs.set p n).keys = fs.keys ++ [p] := by
  induction fs with
  | nil => rfl
  | cons e rest ih =>
    simp only [Fs.find] at h
    by_cases he : e.1 = p
    · rw [if_pos he] at h; cases h
    · rw [if_neg he] at h
      simp [Fs.set, he, Fs.keys] at ih ⊢
      exact ih h

theorem keys_set_of_find_some (fs : Fs) (p : Fpath) (n m : FsNode)
    (hnd : fs.keys.Nodup) (h : fs.find p = some m) :
    (fs.set p n).keys = fs.keys := by
  induction fs with
  | nil => cases h
  | cons e rest ih =>
    simp only [Fs.keys, List.map_cons, List.nodup_cons] at hnd
    simp only [Fs.find] at h
    by_cases he : e.1 = p
    · have hrest : Fs.find rest p = none := by
        cases hf : Fs.find rest p with
        | none => rfl
        | some x =>
          exact absurd (he ▸ find_some_mem rest p x hf) hnd.1
      simp [Fs.set, he, Fs.keys, erase_of_find_none rest p hrest]
    · rw [if_neg he] at h
      simp [Fs.set, he, Fs.keys]
      exact ih hnd.2 h

theorem keys_erase_sublist (fs : Fs) (p : Fpath) :
    (fs.erase p).keys.Sublist fs.keys := by
  induction fs with
  | nil => exact List.Sublist.refl _
  | cons e rest ih =>
    by_cases he : e.1 = p
    · simp only [Fs.erase, if_pos he, Fs.keys, List.map_cons]
      exact ih.trans (List.sublist_cons_self _ _)
    · simp only [Fs.erase, if_neg he, Fs.keys, List.map_cons]
      exact ih.cons₂ _

theorem nodup_set (fs : Fs) (p : Fpath) (n : FsNode) (h : fs.keys.Nodup) :
    (fs.set p n).keys.Nodup := by
  cases hf : fs.find p with
  | none =>
    rw [keys_set_of_find_none fs p n hf]
    have hnm := find_none_not_mem fs p hf
    simp [List.nodup_append, h, hnm]
  | some m => rw [keys_set_of_find_some fs p n m h hf]; exact h

theorem nodup_erase (fs : Fs) (p : Fpath) (h : fs.keys.Nodup) :
    (fs.erase p).keys.Nodup :=
  h.sublist (keys_erase_sublist fs p)

theorem nodup_mkdirList : ∀ (qs : List Fpath) (fs : Fs), fs.keys.Nodup →
    (mkdirList fs qs).keys.Nodup := by
  intro qs
  induction qs with
  | nil => intro fs h; exact h
  | cons q qs ih =>
    intro fs h
    cases hf : fs.find q with
    | none => simp only [mkdirList, hf]; exact ih _ (nodup_set fs q .dir h)
    | some m => simp only [mkdirList, hf]; exact ih _ h

theorem count_childNames (fs : Fs) (d : Fpath) (s : String) :
    (childNames fs d).count s = fs.keys.count (d ++ [s]) := by
  induction fs with
  | nil => rfl
  | cons e rest ih =>
    simp only [childNames, List.filterMap_cons, Fs.keys, List.map_cons]
    cases hc : childOf d e.1 with
    | none =>
      have hne : e.1 ≠ d ++ [s] := by
        intro hcon
        rw [(childOf_eq_some_iff d e.1 s).mpr hcon] at hc
        cases hc
      rw [List.count_cons]
      simp only [childNames, Fs.keys] at ih
      rw [ih]
      simp [hne]
    | some m =>
      rw [List.count_cons, List.count_cons]
      simp only [childNames, Fs.keys] at ih
      rw [ih]
      have he1 : e.1 = d ++ [m] := (childOf_eq_some_iff d e.1 m).mp hc
      by_cases hms : m = s
      · subst hms
        simp [he1]
      · have hne2 : e.1 ≠ d ++ [s] := by
          rw [he1]
          intro hcon
          exact hms (by simpa using hcon)
        simp [hms, hne2]

theorem mkdirList_id : ∀ (qs : List Fpath) (fs : Fs),
    (∀ q ∈ qs, fs.find q ≠ none) → mkdirList fs qs = fs := by
  intro qs
  induction qs with
  | nil => intro fs _; rfl
  | cons q qs ih =>
    intro fs h
    cases hf : fs.find q with
    | none => exact absurd hf (h q (List.mem_cons_self q qs))
    | some m =>
      simp only [mkdirList, hf]
      exact ih _ (fun r hr => h r (List.mem_cons_of_mem q hr))

theorem mkdirList_nonnone : ∀ (qs : List Fpath) (fs : Fs) (q : Fpath),
    q ∈ qs → (mkdirList fs qs).find q ≠ none := by
  intro qs
  induction qs with
  | nil => intro fs q h; cases h
  | cons q0 qs ih =>
    intro fs q hq
    rcases List.mem_cons.mp hq with rfl | hmem
    · cases hf : fs.find q with
      | none =>
        simp only [mkdirList, hf]
        intro hc
        rw [find_mkdirList_some qs _ q .dir (find_set_self fs q .dir)] at hc
        cases hc
      | some m =>
        simp only [mkdirList, hf]
        intro hc
        rw [find_mkdirList_some qs _ q m hf] at hc
        cases hc
    · cases hf : fs.find q0 with
      | none => simp only [mkdirList, hf]; exact ih _ q hmem
      | some m => simp only [mkdirList, hf]; exact ih _ q hmem

theorem unlinkPath_self_not_dir (fs : Fs) (t : Fpath)
    (h : fs.find t ≠ some .dir) : (unlinkPath fs t).find t = none := by
  unfold unlinkPath
  cases hf : fs.find t with
  | none => exact hf
  | some m =>
    cases m
    case dir => exact absurd hf h
    all_goals exact find_erase_self fs t

theorem lfp_congr (fs fs' : Fs) (db : DB) (dev : Device) (add : Bool)
    (sd : Fpath) (h1 : fs.find sd = fs'.find sd)
    (h2 : childNames fs sd = childNames fs' sd) :
    link_find_prioritized fs db dev add sd =
      link_find_prioritized fs' db dev add sd := by
  unfold link_find_prioritized
  rw [h1, h2]

theorem mkdirList_none_mem_dir : ∀ (qs : List Fpath) (fs : Fs) (q : Fpath),
    fs.find q = none → q ∈ qs → (mkdirList fs qs).find q = some .dir := by
  intro qs
  induction qs with
  | nil => intro fs q _ h; cases h
  | cons q0 qs ih =>
    intro fs q hn hq
    by_cases hq0 : q = q0
    · subst hq0
      simp only [mkdirList, hn]
      exact find_mkdirList_some qs _ q .dir (find_set_self fs q .dir)
    · rcases List.mem_cons.mp hq with rfl | hmem
      · exact absurd rfl hq0
      · cases hf : fs.find q0 with
        | none =>
          simp only [mkdirList, hf]
          exact ih _ q (by rw [find_set_ne fs q0 q .dir hq0]; exact hn) hmem
        | some m => simp only [mkdirList, hf]; exact ih _ q hn hmem

theorem find_mkdirList_cases (qs : List Fpath) (fs : Fs) (q : Fpath) :
    (mkdirList fs qs).find q = fs.find q ∨
      (fs.find q = none ∧ q ∈ qs ∧ (mkdirList fs qs).find q = some .dir) := by
  cases hf : fs.find q with
  | some m => exact Or.inl (find_mkdirList_some qs fs q m hf)
  | none =>
    by_cases hm : q ∈ qs
    · exact Or.inr ⟨rfl, hm, mkdirList_none_mem_dir qs fs q hf hm⟩
    · exact Or.inl ((find_mkdirList_not_mem qs fs q hm).trans hf)

theorem tmpPathOf_length (slink : Fpath) (id : String) :
    (tmpPathOf slink id).length = slink.length - 1 + 1 := by
  unfold tmpPathOf
  rw [List.length_append, List.length_dropLast]
  rfl

theorem tmp_not_ancestors (slink : Fpath) (id : String) :
    tmpPathOf slink id ∉ ancestors slink := by
  intro hm
  have h1 := mem_ancestors_length hm
  rw [tmpPathOf_length] at h1
  omega

theorem slink_not_ancestors (slink : Fpath) :
    slink ∉ ancestors slink :=
  fun hm => absurd (mem_ancestors_length hm) (lt_irrefl _)

theorem ancestors_tmpPathOf (slink : Fpath) (id : String) :
    ancestors (tmpPathOf slink id) = ancestors slink := by
  cases slink with
  | nil => rfl
  | cons a l =>
    unfold ancestors
    rw [tmpPathOf_length]
    simp only [List.length_cons]
    rw [show l.length + 1 - 1 + 1 - 1 = l.length + 1 - 1 from by omega]
    apply List.map_congr_left
    intro k hk
    have hk' : k < l.length := by
      have := List.mem_range.mp hk
      omega
    unfold tmpPathOf
    rw [List.take_append_of_le_length
      (by rw [List.length_dropLast]; simp; omega),
      List.dropLast_eq_take, List.take_take]
    congr 1
    simp
    omega

theorem childNames_unlinkPath_of_none {d t : Fpath} (h : childOf d t = none)
    (fs : Fs) : childNames (unlinkPath fs t) d = childNames fs d := by
  unfold unlinkPath
  cases hf : fs.find t with
  | none => rfl
  | some m => cases m <;> first
      | rfl
      | exact childNames_erase_of_none h fs

theorem nodup_unlinkPath (fs : Fs) (t : Fpath) (h : fs.keys.Nodup) :
    (unlinkPath fs t).keys.Nodup := by
  unfold unlinkPath
  cases hf : fs.find t with
  | none => exact h
  | some m => cases m <;> first
      | exact h
      | exact nodup_erase fs t h

theorem find_unlinkPath_cases (fs : Fs) (t q : Fpath) :
    (unlinkPath fs t).find q = fs.find q ∨ (unlinkPath fs t).find q = none := by
  by_cases hq : q = t
  · unfold unlinkPath
    cases hf : fs.find t with
    | none => exact Or.inl rfl
    | some m =>
      cases m with
      | dir => exact Or.inl rfl
      | reg => rw [hq]; exact Or.inr (find_erase_self fs t)
      | blk d2 => rw [hq]; exact Or.inr (find_erase_self fs t)
      | chr d2 => rw [hq]; exact Or.inr (find_erase_self fs t)
      | sym s2 => rw [hq]; exact Or.inr (find_erase_self fs t)
  · exact Or.inl (find_unlinkPath_ne fs t q hq)

theorem replaceAt_spec (fs : Fs) (dev : Device) (target : List String)
    (slink : Fpath)
    (htmp : fs.find (tmpPathOf slink dev.id) ≠ some .dir)
    (hsl : fs.find slink ≠ some .dir) :
    ∃ fs1, replaceAt fs dev target slink = (fs1, .replaced) ∧
      fs1.find slink = some (.sym target) ∧
      fs1.find (tmpPathOf slink dev.id) = none ∧
      (∀ q, q ≠ slink → q ≠ tmpPathOf slink dev.id →
        fs1.find q = fs.find q ∨
          (fs.find q = none ∧ fs1.find q = some .dir ∧ q ∈ ancestors slink)) ∧
      (∀ d, childOf d slink = none → childOf d (tmpPathOf slink dev.id) = none →
        (∀ q ∈ ancestors slink, childOf d q = none) →
        childNames fs1 d = childNames fs d) ∧
      (fs.keys.Nodup → fs1.keys.Nodup) := by
  have h0 : (unlinkPath fs (tmpPathOf slink dev.id)).find (tmpPathOf slink dev.id) =
      none := unlinkPath_self_not_dir fs _ htmp
  have htmpne : tmpPathOf slink dev.id ≠ slink := tmpPathOf_ne slink dev.id
  have hmidsl :
      ((mkdirParents (unlinkPath fs (tmpPathOf slink dev.id)) (tmpPathOf slink dev.id)).set
        (tmpPathOf slink dev.id) (.sym target)).find slink = fs.find slink := by
    rw [find_set_ne _ _ _ _ (fun hc => htmpne hc.symm)]
    rw [show mkdirParents (unlinkPath fs (tmpPathOf slink dev.id)) (tmpPathOf slink dev.id) =
        mkdirList (unlinkPath fs (tmpPathOf slink dev.id))
          (ancestors (tmpPathOf slink dev.id)) from rfl]
    rw [find_mkdirList_not_mem _ _ _
      (by rw [ancestors_tmpPathOf]; exact slink_not_ancestors slink)]
    exact find_unlinkPath_ne fs _ slink (fun hc => htmpne hc.symm)
  have hexpr : replaceAt fs dev target slink =
      ((((mkdirParents (unlinkPath fs (tmpPathOf slink dev.id))
          (tmpPathOf slink dev.id)).set (tmpPathOf slink dev.id)
            (.sym target)).erase (tmpPathOf slink dev.id)).set slink (.sym target),
        .replaced) := by
    simp only [replaceAt, h0]
    cases hv : fs.find slink with
    | none => rw [hmidsl, hv]
    | some m =>
      cases m
      case dir => exact absurd hv hsl
      all_goals rw [hmidsl, hv]
  refine ⟨_, hexpr, ?_, ?_, ?_, ?_, ?_⟩
  · exact find_set_self _ _ _
  · rw [find_set_ne _ _ _ _ htmpne, find_erase_self]
  · intro q hq1 hq2
    rw [find_set_ne _ _ _ _ hq1, find_erase_ne _ _ _ hq2,
      find_set_ne _ _ _ _ hq2]
    rcases find_mkdirList_cases (ancestors (tmpPathOf slink dev.id))
        (unlinkPath fs (tmpPathOf slink dev.id)) q with hc | hc
    · rw [show mkdirParents (unlinkPath fs (tmpPathOf slink dev.id)) (tmpPathOf slink dev.id) =
          mkdirList (unlinkPath fs (tmpPathOf slink dev.id))
            (ancestors (tmpPathOf slink dev.id)) from rfl, hc]
      exact Or.inl (find_unlinkPath_ne fs _ q hq2)
    · rw [show mkdirParents (unlinkPath fs (tmpPathOf slink dev.id)) (tmpPathOf slink dev.id) =
          mkdirList (unlinkPath fs (tmpPathOf slink dev.id))
            (ancestors (tmpPathOf slink dev.id)) from rfl, hc.2.2]
      refine Or.inr ⟨?_, rfl, ?_⟩
      · rw [← find_unlinkPath_ne fs (tmpPathOf slink dev.id) q hq2]
        exact hc.1
      · rw [← ancestors_tmpPathOf slink dev.id]
        exact hc.2.1
  · intro d hd1 hd2 hd3
    rw [childNames_set_of_none hd1, childNames_erase_of_none hd2,
      childNames_set_of_none hd2]
    rw [show mkdirParents (unlinkPath fs (tmpPathOf slink dev.id)) (tmpPathOf slink dev.id) =
        mkdirList (unlinkPath fs (tmpPathOf slink dev.id))
          (ancestors (tmpPathOf slink dev.id)) from rfl]
    rw [childNames_mkdirList_of_none _ _
      (by rw [ancestors_tmpPathOf]; exact hd3)]
    exact childNames_unlinkPath_of_none hd2 fs
  · intro hnd
    exact nodup_set _ _ _ (nodup_erase _ _ (nodup_set _ _ _
      (nodup_mkdirList _ _ (nodup_unlinkPath fs _ hnd))))

theorem node_symlink_establish (fs : Fs) (dev : Device) (node slink : Fpath)
    (htop : topOk (fs.find slink) = true)
    (htmp : fs.find (tmpPathOf slink dev.id) ≠ some .dir) :
    ∃ fs1 res, node_symlink fs dev node slink = (fs1, res) ∧
      (res = .preserved ∨ res = .created ∨ res = .replaced) ∧
      (res = .preserved → fs1 = fs) ∧
      fs1.find slink = some (.sym (path_make_relative slink.dropLast node)) ∧
      (∀ q, q ≠ slink → q ≠ tmpPathOf slink dev.id →
        fs1.find q = fs.find q ∨
          (fs.find q = none ∧ fs1.find q = some .dir ∧ q ∈ ancestors slink)) ∧
      (∀ d, childOf d slink = none → childOf d (tmpPathOf slink dev.id) = none →
        (∀ q ∈ ancestors slink, childOf d q = none) →
        childNames fs1 d = childNames fs d) ∧
      (fs.keys.Nodup → fs1.keys.Nodup) := by
  cases hf : fs.find slink with
  | none =>
    refine ⟨(mkdirParents fs slink).set slink
      (.sym (path_make_relative slink.dropLast node)), .created,
      node_symlink_create fs dev node slink hf, Or.inr (Or.inl rfl),
      ?_, find_set_self _ _ _, ?_, ?_, ?_⟩
    · intro hc; cases hc
    · intro q hq1 hq2
      rw [find_set_ne _ _ _ _ hq1]
      exact find_mkdirList_cases (ancestors slink) fs q |>.imp id
        (fun hc => ⟨hc.1, hc.2.2, hc.2.1⟩)
    · intro d hd1 _ hd3
      rw [childNames_set_of_none hd1]
      exact childNames_mkdirList_of_none _ _ hd3
    · intro hnd
      exact nodup_set _ _ _ (nodup_mkdirList _ _ hnd)
  | some m =>
    cases m with
    | blk d2 => rw [hf] at htop; cases htop
    | chr d2 => rw [hf] at htop; cases htop
    | dir => rw [hf] at htop; cases htop
    | reg =>
      obtain ⟨fs1, hr, hsl, _, hframe, hch, hnd⟩ :=
        replaceAt_spec fs dev (path_make_relative slink.dropLast node) slink htmp
          (by rw [hf]; intro hc; cases hc)
      refine ⟨fs1, .replaced, ?_, Or.inr (Or.inr rfl),
        ?_, hsl, hframe, hch, hnd⟩
      · simp only [node_symlink, hf]
        exact hr
      · intro hc; cases hc
    | sym t =>
      by_cases ht : t = path_make_relative slink.dropLast node
      · refine ⟨fs, .preserved,
          node_symlink_preserve fs dev node slink t hf ht, Or.inl rfl,
          fun _ => rfl, by rw [hf, ht], fun q _ _ => Or.inl rfl,
          fun d _ _ _ => rfl, fun h => h⟩
      · obtain ⟨fs1, hr, hsl, _, hframe, hch, hnd⟩ :=
          replaceAt_spec fs dev (path_make_relative slink.dropLast node) slink htmp
            (by rw [hf]; intro hc; cases hc)
        refine ⟨fs1, .replaced, ?_, Or.inr (Or.inr rfl),
          ?_, hsl, hframe, hch, hnd⟩
        · simp only [node_symlink, hf]
          rw [if_neg ht]
          exact hr
        · intro hc; cases hc

theorem claimAdd_spec (fs : Fs) (filename : Fpath)
    (h : fs.find filename = none ∨ fs.find filename = some .reg) :
    ∃ fs1, claimAdd fs filename = .ok fs1 ∧
      fs1.find filename = some .reg ∧
      (∀ q, q ≠ filename →
        fs1.find q = fs.find q ∨
          (fs.find q = none ∧ fs1.find q = some .dir ∧
            q ∈ ancestors filename)) ∧
      (∀ d, childOf d filename = none →
        (∀ q ∈ ancestors filename, childOf d q = none) →
        childNames fs1 d = childNames fs d) ∧
      (∀ q ∈ ancestors filename, fs1.find q ≠ none) ∧
      (fs.keys.Nodup → fs1.keys.Nodup) := by
  have hself : (mkdirParents fs filename).find filename = fs.find filename :=
    find_mkdirParents_self fs filename
  rcases h with hf | hf
  · refine ⟨(mkdirParents fs filename).set filename .reg, ?_,
      find_set_self _ _ _, ?_, ?_, ?_, ?_⟩
    · simp only [claimAdd]
      rw [hself, hf]
    · intro q hq1
      rw [find_set_ne _ _ _ _ hq1]
      exact (find_mkdirList_cases (ancestors filename) fs q).imp id
        (fun hc => ⟨hc.1, hc.2.2, hc.2.1⟩)
    · intro d hd1 hd2
      rw [childNames_set_of_none hd1]
      exact childNames_mkdirList_of_none _ _ hd2
    · intro q hq
      have hne : q ≠ filename :=
        fun hc => absurd (mem_ancestors_length (hc ▸ hq)) (lt_irrefl _)
      rw [find_set_ne _ _ _ _ hne]
      exact mkdirList_nonnone _ _ _ hq
    · intro hnd
      exact nodup_set _ _ _ (nodup_mkdirList _ _ hnd)
  · refine ⟨mkdirParents fs filename, ?_, hself.trans hf, ?_, ?_, ?_, ?_⟩
    · simp only [claimAdd]
      rw [hself, hf]
    · intro q _
      exact (find_mkdirList_cases (ancestors filename) fs q).imp id
        (fun hc => ⟨hc.1, hc.2.2, hc.2.1⟩)
    · intro d _ hd2
      exact childNames_mkdirList_of_none _ _ hd2
    · intro q hq
      exact mkdirList_nonnone _ _ _ hq
    · intro hnd
      exact nodup_mkdirList _ _ hnd

theorem claimAdd_settled (fs : Fs) (filename : Fpath)
    (hreg : fs.find filename = some .reg)
    (hanc : ∀ q ∈ ancestors filename, fs.find q ≠ none) :
    claimAdd fs filename = .ok fs := by
  have hid : mkdirParents fs filename = fs := mkdirList_id _ _ hanc
  simp only [claimAdd]
  rw [show mkdirParents fs filename = fs from hid, hreg]

theorem luLoop_replace_step (db : DB) (dev : Device) (slink : Fpath)
    (add : Bool) (dirname filename : Fpath) (adv : Nat → Fs → Fs)
    (fuel i : Nat) (fs fsa fs1 : Fs) (w : Fpath)
    (hfsa : adv i fs = fsa)
    (hw : link_find_prioritized fsa db dev add dirname = .ok w)
    (hns : node_symlink fsa dev w slink = (fs1, .replaced)) :
    luLoop db dev slink add dirname filename adv (fuel + 1) i fs =
      luLoop db dev slink add dirname filename adv fuel (i + 1) fs1 := by
  simp only [luLoop]
  rw [hfsa]
  simp only [hw, hns]

theorem link_update_core_break1 (fs : Fs) (db : DB) (dev : Device)
    (slink : Fpath) (add : Bool) (dirname filename : Fpath)
    (adv : Nat → Fs → Fs) (fs1 : Fs)
    (hstep : ∀ fuel, luLoop db dev slink add dirname filename adv (fuel + 1) 0 fs =
      luLoop db dev slink add dirname filename adv fuel 1 fs1)
    (hq : ∀ fuel, luLoop db dev slink add dirname filename adv (fuel + 1) 1 fs1 =
      (fs1, .broke 1)) :
    link_update_core fs db dev slink add dirname filename adv =
      (fs1, .ok ()) := by
  unfold link_update_core
  by_cases hi : dev.inited
  · rw [show (if dev.inited = true then (128 : Nat) else 1) = 127 + 1 from by
      rw [if_pos hi], hstep 127, show (127 : Nat) = 126 + 1 from rfl, hq 126]
    rfl
  · rw [show (if dev.inited = true then (128 : Nat) else 1) = 0 + 1 from by
      rw [if_neg hi], hstep 0]
    rfl

theorem snapDir_congr (fs fs' : Fs) (p : Fpath)
    (h1 : fs.find p = fs'.find p) (h2 : childNames fs p = childNames fs' p) :
    snapDir fs p = snapDir fs' p := by
  unfold snapDir
  rw [h1, h2]

theorem snapDir_ne_none (fs : Fs) (p : Fpath) (h : fs.find p ≠ none) :
    snapDir fs p ≠ none := by
  unfold snapDir
  cases hf : fs.find p with
  | none => exact absurd hf h
  | some n => simp

theorem dirname_mem_ancestors_concat (d : Fpath) (x : String) (h : d ≠ []) :
    d ∈ ancestors (d ++ [x]) := by
  unfold ancestors
  refine List.mem_map.mpr ⟨d.length - 1, ?_, ?_⟩
  · refine List.mem_range.mpr ?_
    rw [List.length_append]
    have : d.length ≥ 1 := List.length_pos.mpr h
    simp
    omega
  · have : d.length ≥ 1 := List.length_pos.mpr h
    rw [show d.length - 1 + 1 = d.length from by omega]
    rw [List.take_append_of_le_length (le_refl _), List.take_length]

theorem linkShape_elim {l : Fpath} (h : linkShape l = true) :
    ∃ x xs, l = "dev" :: x :: xs := by
  unfold linkShape at h
  cases hdr : devRest l with
  | none => rw [hdr] at h; cases h
  | some r =>
    cases r with
    | nil => rw [hdr] at h; cases h
    | cons x xs => exact ⟨x, xs, devRest_eq hdr⟩

theorem stackDirOf_ne_nil (rest : Fpath) : stackDirOf rest ≠ [] := by
  simp only [stackDirOf]
  split <;> simp

theorem stackDirOf_length (rest : Fpath)
    (h : escape_path (renderRel rest) 4096 ≠ "") :
    (stackDirOf rest).length = 4 := by
  simp only [stackDirOf]
  rw [if_neg h]
  rfl

theorem linkShape_head {l : Fpath} (h : linkShape l = true) :
    l.head? = some "dev" := by
  obtain ⟨x, xs, hl⟩ := linkShape_elim h
  rw [hl]
  rfl

theorem linkShape_devRest {l : Fpath} (h : linkShape l = true) :
    devRest l = some (l.drop 1) := by
  obtain ⟨x, xs, hl⟩ := linkShape_elim h
  rw [hl]
  rfl

theorem linkShape_tmp_head {l : Fpath} (h : linkShape l = true) (id : String) :
    (tmpPathOf l id).head? = some "dev" := by
  obtain ⟨x, xs, hl⟩ := linkShape_elim h
  rw [hl]
  rfl

theorem concat_ne_concat {d d' : Fpath} (x : String) (h : d ≠ d') :
    d ++ [x] ≠ d' ++ [x] := by
  intro hc
  have h2 := congrArg List.dropLast hc
  rw [List.dropLast_concat, List.dropLast_concat] at h2
  exact h h2

theorem childOf_concat_none (d d' : Fpath) (x : String) (h : d' ≠ d) :
    childOf d (d' ++ [x]) = none := by
  cases hc : childOf d (d' ++ [x]) with
  | none => rfl
  | some s =>
    have h2 := (childOf_eq_some_iff d (d' ++ [x]) s).mp hc
    have h3 := congrArg List.dropLast h2
    rw [List.dropLast_concat, List.dropLast_concat] at h3
    exact absurd h3 h

theorem dn_mem_ancestors_cf (dev : Device) (l : Fpath) :
    stackDirOf (l.drop 1) ∈ ancestors (claimFileOf dev l) :=
  dirname_mem_ancestors_concat _ dev.id (stackDirOf_ne_nil _)

theorem cf_length (dev : Device) (l : Fpath)
    (h : escape_path (renderRel (l.drop 1)) 4096 ≠ "") :
    (claimFileOf dev l).length = 5 := by
  unfold claimFileOf
  rw [List.length_append, stackDirOf_length _ h]
  rfl

theorem node_permissions_apply_congr (fs fs' : Fs) (dev : Device)
    (mode : Option Nat) (futimens_r : Except Err Unit)
    (h : fs.find dev.devname = fs'.find dev.devname) :
    node_permissions_apply fs dev mode futimens_r =
      node_permissions_apply fs' dev mode futimens_r := by
  unfold node_permissions_apply
  rw [h]

theorem count_beq_congr (l : List Fpath) (a : Fpath) :
    @List.count Fpath List.instBEq a l =
      @List.count Fpath instBEqOfDecidableEq a l := by
  induction l with
  | nil => rfl
  | cons b t ih =>
    simp only [List.count_cons]
    rw [ih]
    congr 1
    by_cases h : b = a
    · subst h; simp
    · simp [h]

theorem childNames_count_eq_one (fs : Fs) (d : Fpath) (s : String)
    (hnd : fs.keys.Nodup) (hmem : (d ++ [s]) ∈ fs.keys) :
    (childNames fs d).count s = 1 := by
  rw [count_childNames, count_beq_congr]
  exact List.count_eq_one_of_mem hnd hmem

theorem link_update_add_spec (fs : Fs) (db : DB) (dev : Device) (l : Fpath)
    (hsh : linkShape l = true)
    (htop : topOk (fs.find l) = true)
    (htmp : fs.find (tmpPathOf l dev.id) ≠ some .dir)
    (hclaim : fs.find (claimFileOf dev l) = none ∨
      fs.find (claimFileOf dev l) = some .reg) :
    ∃ fs1 w,
      link_update fs db dev l true advId = (fs1, .ok ()) ∧
      link_find_prioritized fs1 db dev true (stackDirOf (l.drop 1)) = .ok w ∧
      fs1.find l = some (.sym (path_make_relative l.dropLast w)) ∧
      fs1.find (claimFileOf dev l) = some .reg ∧
      (∀ q ∈ ancestors (claimFileOf dev l), fs1.find q ≠ none) ∧
      (∀ q, q ≠ l → q ≠ tmpPathOf l dev.id → q ≠ claimFileOf dev l →
        fs1.find q = fs.find q ∨
          (fs.find q = none ∧ fs1.find q = some .dir ∧
            (q ∈ ancestors l ∨ q ∈ ancestors (claimFileOf dev l)))) ∧
      (∀ d, childOf d l = none → childOf d (tmpPathOf l dev.id) = none →
        childOf d (claimFileOf dev l) = none →
        (∀ q, q ∈ ancestors l ∨ q ∈ ancestors (claimFileOf dev l) →
          childOf d q = none) →
        childNames fs1 d = childNames fs d) ∧
      (fs.keys.Nodup → fs1.keys.Nodup) := by
  have hlh : l.head? = some "dev" := linkShape_head hsh
  have htmph : (tmpPathOf l dev.id).head? = some "dev" := linkShape_tmp_head hsh dev.id
  have hdr : devRest l = some (l.drop 1) := linkShape_devRest hsh
  have hcfh := claimFileOf_head dev l
  have hdnh := stackDirOf_head (l.drop 1)
  obtain ⟨fsb, hca, hbreg, hbframe, hbchild, hbanc, hbnd⟩ :=
    claimAdd_spec fs (claimFileOf dev l) hclaim
  have hlne : l ≠ claimFileOf dev l := head_dev_ne_run hlh hcfh
  have htne : tmpPathOf l dev.id ≠ claimFileOf dev l := head_dev_ne_run htmph hcfh
  have hfbl : fsb.find l = fs.find l := by
    rcases hbframe l hlne with h | h
    · exact h
    · have h2 := (mem_ancestors_head h.2.2).trans hcfh
      rw [hlh] at h2
      simp at h2
  have hfbt : fsb.find (tmpPathOf l dev.id) = fs.find (tmpPathOf l dev.id) := by
    rcases hbframe _ htne with h | h
    · exact h
    · have h2 := (mem_ancestors_head h.2.2).trans hcfh
      rw [htmph] at h2
      simp at h2
  have htopb : topOk (fsb.find l) = true := by rw [hfbl]; exact htop
  have htmpb : fsb.find (tmpPathOf l dev.id) ≠ some .dir := by
    rw [hfbt]; exact htmp
  obtain ⟨w, hw⟩ := lfp_add_some fsb db dev (stackDirOf (l.drop 1))
  obtain ⟨fs1, res, hns, hres3, hpres, hsym, hframe1, hch1, hnd1⟩ :=
    node_symlink_establish fsb dev w l htopb htmpb
  have hdnb : fsb.find (stackDirOf (l.drop 1)) ≠ none :=
    hbanc _ (dn_mem_ancestors_cf dev l)
  have hdn1 : fs1.find (stackDirOf (l.drop 1)) = fsb.find (stackDirOf (l.drop 1)) := by
    rcases hframe1 _ (Ne.symm (head_dev_ne_run hlh hdnh))
        (Ne.symm (head_dev_ne_run htmph hdnh)) with h | h
    · exact h
    · have h2 := (mem_ancestors_head h.2.2).trans hlh
      rw [hdnh] at h2
      simp at h2
  have hch_dn : childNames fs1 (stackDirOf (l.drop 1)) =
      childNames fsb (stackDirOf (l.drop 1)) := by
    refine hch1 _ (childOf_none_of_head hdnh hlh)
      (childOf_none_of_head hdnh htmph) ?_
    intro q hq
    exact childOf_none_of_head hdnh ((mem_ancestors_head hq).trans hlh)
  have hw1 : link_find_prioritized fs1 db dev true (stackDirOf (l.drop 1)) = .ok w := by
    rw [lfp_congr fs1 fsb db dev true _ hdn1 hch_dn]
    exact hw
  have hst : snapDir fsb (stackDirOf (l.drop 1)) ≠ none := snapDir_ne_none _ _ hdnb
  have hst2 : snapDir fs1 (stackDirOf (l.drop 1)) =
      snapDir fsb (stackDirOf (l.drop 1)) := snapDir_congr _ _ _ hdn1 hch_dn
  have hcore : link_update_core fsb db dev l true (stackDirOf (l.drop 1))
      (stackDirOf (l.drop 1) ++ [dev.id]) advId = (fs1, .ok ()) := by
    rcases hres3 with hres | hres | hres
    · subst hres
      apply link_update_core_break0
      intro fuel
      exact luLoop_quiesce db dev l true _ _ advId fuel 0 fsb fsb fs1 w
        .preserved rfl hw hns (Or.inl rfl) hst hst2
    · subst hres
      apply link_update_core_break0
      intro fuel
      exact luLoop_quiesce db dev l true _ _ advId fuel 0 fsb fsb fs1 w
        .created rfl hw hns (Or.inr rfl) hst hst2
    · subst hres
      apply link_update_core_break1
      · intro fuel
        exact luLoop_replace_step db dev l true _ _ advId fuel 0 fsb fsb fs1 w
          rfl hw hns
      · intro fuel
        refine luLoop_quiesce db dev l true _ _ advId fuel 1 fs1 fs1 fs1 w
          .preserved rfl hw1 (node_symlink_preserve fs1 dev w l _ hsym rfl)
          (Or.inl rfl) ?_ rfl
        rw [hst2]
        exact hst
  have hlu : link_update fs db dev l true advId = (fs1, .ok ()) := by
    simp only [link_update, hdr]
    rw [show stackDirOf (l.drop 1) ++ [dev.id] = claimFileOf dev l from rfl]
    simp only [hca]
    exact hcore
  have hcl1 : fs1.find (claimFileOf dev l) = some .reg := by
    rcases hframe1 _ (Ne.symm hlne) (Ne.symm htne) with h | h
    · rw [h]; exact hbreg
    · have h2 := (mem_ancestors_head h.2.2).trans hlh
      rw [hcfh] at h2
      simp at h2
  refine ⟨fs1, w, hlu, hw1, hsym, hcl1, ?_, ?_, ?_, fun h => hnd1 (hbnd h)⟩
  · intro q hq
    have hqh : q.head? = some "run" := (mem_ancestors_head hq).trans hcfh
    rcases hframe1 q (Ne.symm (head_dev_ne_run hlh hqh))
        (Ne.symm (head_dev_ne_run htmph hqh)) with h | h
    · rw [h]; exact hbanc q hq
    · exact absurd h.1 (hbanc q hq)
  · intro q h1 h2 h3
    rcases hframe1 q h1 h2 with ha | ha
    · rcases hbframe q h3 with hb | hb
      · exact Or.inl (ha.trans hb)
      · exact Or.inr ⟨hb.1, ha.trans hb.2.1, Or.inr hb.2.2⟩
    · rcases hbframe q h3 with hb | hb
      · exact Or.inr ⟨hb.symm.trans ha.1, ha.2.1, Or.inl ha.2.2⟩
      · exact absurd (hb.2.1.symm.trans ha.1) (Option.some_ne_none _)
  · intro d hd1 hd2 hd3 hd4
    rw [hch1 d hd1 hd2 (fun q hq => hd4 q (Or.inl hq))]
    exact hbchild d hd3 (fun q hq => hd4 q (Or.inr hq))

theorem link_update_add_settled (fs : Fs) (db : DB) (dev : Device) (l w : Fpath)
    (hsh : linkShape l = true)
    (hreg : fs.find (claimFileOf dev l) = some .reg)
    (hanc : ∀ q ∈ ancestors (claimFileOf dev l), fs.find q ≠ none)
    (hw : link_find_prioritized fs db dev true (stackDirOf (l.drop 1)) = .ok w)
    (hsym : fs.find l = some (.sym (path_make_relative l.dropLast w))) :
    link_update fs db dev l true advId = (fs, .ok ()) := by
  have hdr : devRest l = some (l.drop 1) := linkShape_devRest hsh
  have hca : claimAdd fs (claimFileOf dev l) = .ok fs :=
    claimAdd_settled fs _ hreg hanc
  have hcore : link_update_core fs db dev l true (stackDirOf (l.drop 1))
      (stackDirOf (l.drop 1) ++ [dev.id]) advId = (fs, .ok ()) := by
    apply link_update_core_break0
    intro fuel
    exact luLoop_quiesce db dev l true _ _ advId fuel 0 fs fs fs w
      .preserved rfl hw (node_symlink_preserve fs dev w l _ hsym rfl)
      (Or.inl rfl) (snapDir_ne_none _ _ (hanc _ (dn_mem_ancestors_cf dev l))) rfl
  simp only [link_update, hdr]
  rw [show stackDirOf (l.drop 1) ++ [dev.id] = claimFileOf dev l from rfl]
  simp only [hca]
  exact hcore

theorem fold_add_settled (db : DB) (dev : Device) : ∀ (rest : List Fpath) (F : Fs),
    (∀ l ∈ rest, linkShape l = true ∧
      F.find (claimFileOf dev l) = some .reg ∧
      (∀ q ∈ ancestors (claimFileOf dev l), F.find q ≠ none) ∧
      ∃ w, link_find_prioritized F db dev true (stackDirOf (l.drop 1)) = .ok w ∧
        F.find l = some (.sym (path_make_relative l.dropLast w))) →
    rest.foldl (fun acc m => (link_update acc db dev m true advId).1) F = F
  | [], _, _ => rfl
  | l :: rest', F, h => by
      obtain ⟨hsh, hreg, hanc, w, hw, hsym⟩ := h l (List.mem_cons_self l rest')
      have hstep : link_update F db dev l true advId = (F, .ok ()) :=
        link_update_add_settled F db dev l w hsh hreg hanc hw hsym
      simp only [List.foldl_cons, hstep]
      exact fold_add_settled db dev rest' F
        (fun m hm => h m (List.mem_cons_of_mem _ hm))

theorem fold_add_run (db : DB) (dev : Device) (rest : List Fpath) : ∀ (g : Fs),
    rest.Nodup →
    (∀ l ∈ rest, linkShape l = true ∧
      escape_path (renderRel (l.drop 1)) 4096 ≠ "" ∧
      topOk (g.find l) = true ∧
      g.find (tmpPathOf l dev.id) ≠ some .dir ∧
      (g.find (claimFileOf dev l) = none ∨
        g.find (claimFileOf dev l) = some .reg)) →
    (∀ l ∈ rest, ∀ m ∈ rest, l ≠ m →
      l ∉ ancestors m ∧
      tmpPathOf l dev.id ∉ ancestors m ∧
      tmpPathOf l dev.id ≠ m ∧
      tmpPathOf l dev.id ≠ tmpPathOf m dev.id ∧
      stackDirOf (l.drop 1) ≠ stackDirOf (m.drop 1)) →
    g.keys.Nodup →
    ∃ F, rest.foldl (fun acc m => (link_update acc db dev m true advId).1) g = F ∧
      (∀ l ∈ rest, ∃ w,
        link_find_prioritized F db dev true (stackDirOf (l.drop 1)) = .ok w ∧
        F.find l = some (.sym (path_make_relative l.dropLast w)) ∧
        F.find (claimFileOf dev l) = some .reg ∧
        (∀ q ∈ ancestors (claimFileOf dev l), F.find q ≠ none)) ∧
      (∀ q, (∀ l ∈ rest, q ≠ l ∧ q ≠ tmpPathOf l dev.id ∧
          q ≠ claimFileOf dev l) →
        F.find q = g.find q ∨
          (g.find q = none ∧ F.find q = some .dir ∧
            ∃ l ∈ rest, (q ∈ ancestors l ∨ q ∈ ancestors (claimFileOf dev l)))) ∧
      (∀ d, (∀ l ∈ rest, childOf d l = none ∧
          childOf d (tmpPathOf l dev.id) = none ∧
          childOf d (claimFileOf dev l) = none ∧
          (∀ q, q ∈ ancestors l ∨ q ∈ ancestors (claimFileOf dev l) →
            childOf d q = none)) →
        childNames F d = childNames g d) ∧
      F.keys.Nodup := by
  induction rest with
  | nil =>
    intro g _ _ _ hnd
    exact ⟨g, rfl, fun l hl => absurd hl (List.not_mem_nil l),
      fun q _ => Or.inl rfl, fun d _ => rfl, hnd⟩
  | cons l rest' ih =>
    intro g hldnd hall hpair hnd
    obtain ⟨hsh, henc, htop, htmp, hclaim⟩ := hall l (List.mem_cons_self l rest')
    have hlh : l.head? = some "dev" := linkShape_head hsh
    have hlth : (tmpPathOf l dev.id).head? = some "dev" :=
      linkShape_tmp_head hsh dev.id
    have hlcfh := claimFileOf_head dev l
    have hdnh := stackDirOf_head (l.drop 1)
    obtain ⟨g1, w, hlu, hw, hsym, hreg, hanc, hframe, hchild, hndp⟩ :=
      link_update_add_spec g db dev l hsh htop htmp hclaim
    have hlnotin : l ∉ rest' := (List.nodup_cons.mp hldnd).1
    have hnd' : rest'.Nodup := (List.nodup_cons.mp hldnd).2
    -- the head's pairwise conditions against each member of the tail
    have hPL : ∀ m ∈ rest',
        l ∉ ancestors m ∧ tmpPathOf l dev.id ∉ ancestors m ∧
        tmpPathOf l dev.id ≠ m ∧
        tmpPathOf l dev.id ≠ tmpPathOf m dev.id ∧
        stackDirOf (l.drop 1) ≠ stackDirOf (m.drop 1) := fun m hm =>
      hpair l (List.mem_cons_self l rest') m (List.mem_cons_of_mem _ hm)
        (fun hc => hlnotin (hc ▸ hm))
    have hPM : ∀ m ∈ rest',
        m ∉ ancestors l ∧ tmpPathOf m dev.id ∉ ancestors l ∧
        tmpPathOf m dev.id ≠ l ∧
        tmpPathOf m dev.id ≠ tmpPathOf l dev.id ∧
        stackDirOf (m.drop 1) ≠ stackDirOf (l.drop 1) := fun m hm =>
      hpair m (List.mem_cons_of_mem _ hm) l (List.mem_cons_self l rest')
        (fun hc => hlnotin (hc ▸ hm))
    -- transported per-link conditions at the post-step state g1
    have hall' : ∀ m ∈ rest', linkShape m = true ∧
        escape_path (renderRel (m.drop 1)) 4096 ≠ "" ∧
        topOk (g1.find m) = true ∧
        g1.find (tmpPathOf m dev.id) ≠ some .dir ∧
        (g1.find (claimFileOf dev m) = none ∨
          g1.find (claimFileOf dev m) = some .reg) := by
      intro m hm
      obtain ⟨hmsh, hmenc, hmtop, hmtmp, hmclaim⟩ :=
        hall m (List.mem_cons_of_mem _ hm)
      have hmh : m.head? = some "dev" := linkShape_head hmsh
      have hmth : (tmpPathOf m dev.id).head? = some "dev" :=
        linkShape_tmp_head hmsh dev.id
      have hmcfh := claimFileOf_head dev m
      refine ⟨hmsh, hmenc, ?_, ?_, ?_⟩
      · rcases hframe m (fun hc => hlnotin (hc ▸ hm))
            (Ne.symm (hPL m hm).2.2.1) (head_dev_ne_run hmh hlcfh) with h | h
        · rw [h]; exact hmtop
        · rcases h.2.2 with hc | hc
          · exact absurd hc (hPM m hm).1
          · have h2 := (mem_ancestors_head hc).trans hlcfh
            rw [hmh] at h2
            simp at h2
      · rcases hframe (tmpPathOf m dev.id) (hPM m hm).2.2.1
            (hPM m hm).2.2.2.1 (head_dev_ne_run hmth hlcfh) with h | h
        · rw [h]; exact hmtmp
        · rcases h.2.2 with hc | hc
          · exact absurd hc (hPM m hm).2.1
          · have h2 := (mem_ancestors_head hc).trans hlcfh
            rw [hmth] at h2
            simp at h2
      · rcases hframe (claimFileOf dev m)
            (Ne.symm (head_dev_ne_run hlh hmcfh))
            (Ne.symm (head_dev_ne_run hlth hmcfh))
            (concat_ne_concat dev.id (hPM m hm).2.2.2.2) with h | h
        · rw [h]; exact hmclaim
        · rcases h.2.2 with hc | hc
          · have h2 := (mem_ancestors_head hc).trans hlh
            rw [hmcfh] at h2
            simp at h2
          · have h2 := mem_ancestors_length hc
            rw [cf_length dev m hmenc, cf_length dev l henc] at h2
            omega
    have hpair' : ∀ a ∈ rest', ∀ b ∈ rest', a ≠ b →
        a ∉ ancestors b ∧ tmpPathOf a dev.id ∉ ancestors b ∧
        tmpPathOf a dev.id ≠ b ∧
        tmpPathOf a dev.id ≠ tmpPathOf b dev.id ∧
        stackDirOf (a.drop 1) ≠ stackDirOf (b.drop 1) := fun a ha b hb hne =>
      hpair a (List.mem_cons_of_mem _ ha) b (List.mem_cons_of_mem _ hb) hne
    obtain ⟨F, hfold, hA, hB, hC, hD⟩ := ih g1 hnd' hall' hpair' (hndp hnd)
    -- the head link's published facts survive the tail's runs
    have havoid_l : ∀ m ∈ rest', l ≠ m ∧ l ≠ tmpPathOf m dev.id ∧
        l ≠ claimFileOf dev m := by
      intro m hm
      exact ⟨fun hc => hlnotin (hc ▸ hm), Ne.symm (hPM m hm).2.2.1,
        head_dev_ne_run hlh (claimFileOf_head dev m)⟩
    have hFl : F.find l = some (.sym (path_make_relative l.dropLast w)) := by
      rcases hB l havoid_l with h | h
      · rw [h]; exact hsym
      · rw [hsym] at h
        cases h.1
    have havoid_cf : ∀ m ∈ rest', claimFileOf dev l ≠ m ∧
        claimFileOf dev l ≠ tmpPathOf m dev.id ∧
        claimFileOf dev l ≠ claimFileOf dev m := by
      intro m hm
      obtain ⟨hmsh, _, _, _, _⟩ := hall m (List.mem_cons_of_mem _ hm)
      exact ⟨Ne.symm (head_dev_ne_run (linkShape_head hmsh) hlcfh),
        Ne.symm (head_dev_ne_run (linkShape_tmp_head hmsh dev.id) hlcfh),
        concat_ne_concat dev.id (hPL m hm).2.2.2.2⟩
    have hFreg : F.find (claimFileOf dev l) = some .reg := by
      rcases hB _ havoid_cf with h | h
      · rw [h]; exact hreg
      · rw [hreg] at h
        cases h.1
    have hFanc : ∀ q ∈ ancestors (claimFileOf dev l), F.find q ≠ none := by
      intro q hq
      have hqh : q.head? = some "run" := (mem_ancestors_head hq).trans hlcfh
      have hqlen := mem_ancestors_length hq
      rw [cf_length dev l henc] at hqlen
      have havoid_q : ∀ m ∈ rest', q ≠ m ∧ q ≠ tmpPathOf m dev.id ∧
          q ≠ claimFileOf dev m := by
        intro m hm
        obtain ⟨hmsh, hmenc, _, _, _⟩ := hall m (List.mem_cons_of_mem _ hm)
        refine ⟨Ne.symm (head_dev_ne_run (linkShape_head hmsh) hqh),
          Ne.symm (head_dev_ne_run (linkShape_tmp_head hmsh dev.id) hqh), ?_⟩
        intro hc
        rw [hc, cf_length dev m hmenc] at hqlen
        omega
      rcases hB q havoid_q with h | h
      · rw [h]; exact hanc q hq
      · rw [h.2.1]
        exact Option.some_ne_none _
    have hdn4 : (stackDirOf (l.drop 1)).length = 4 := stackDirOf_length _ henc
    have hFdn : F.find (stackDirOf (l.drop 1)) = g1.find (stackDirOf (l.drop 1)) := by
      have havoid_dn : ∀ m ∈ rest', stackDirOf (l.drop 1) ≠ m ∧
          stackDirOf (l.drop 1) ≠ tmpPathOf m dev.id ∧
          stackDirOf (l.drop 1) ≠ claimFileOf dev m := by
        intro m hm
        obtain ⟨hmsh, hmenc, _, _, _⟩ := hall m (List.mem_cons_of_mem _ hm)
        refine ⟨Ne.symm (head_dev_ne_run (linkShape_head hmsh) hdnh),
          Ne.symm (head_dev_ne_run (linkShape_tmp_head hmsh dev.id) hdnh), ?_⟩
        intro hc
        have := cf_length dev m hmenc
        rw [← hc, hdn4] at this
        omega
      rcases hB _ havoid_dn with h | h
      · exact h
      · exact absurd h.1 (hanc _ (dn_mem_ancestors_cf dev l))
    have hFdnch : childNames F (stackDirOf (l.drop 1)) =
        childNames g1 (stackDirOf (l.drop 1)) := by
      refine hC _ ?_
      intro m hm
      obtain ⟨hmsh, hmenc, _, _, _⟩ := hall m (List.mem_cons_of_mem _ hm)
      have hmh : m.head? = some "dev" := linkShape_head hmsh
      refine ⟨childOf_none_of_head hdnh hmh,
        childOf_none_of_head hdnh (linkShape_tmp_head hmsh dev.id),
        childOf_concat_none _ _ dev.id (hPM m hm).2.2.2.2, ?_⟩
      intro q hq
      rcases hq with hq | hq
      · exact childOf_none_of_head hdnh ((mem_ancestors_head hq).trans hmh)
      · refine childOf_none_of_len ?_
        have h2 := mem_ancestors_length hq
        rw [cf_length dev m hmenc] at h2
        rw [hdn4]
        omega
    have hFw : link_find_prioritized F db dev true (stackDirOf (l.drop 1)) = .ok w := by
      rw [lfp_congr F g1 db dev true _ hFdn hFdnch]
      exact hw
    refine ⟨F, ?_, ?_, ?_, ?_, hD⟩
    · simp only [List.foldl_cons, hlu]
      exact hfold
    · intro x hx
      rcases List.mem_cons.mp hx with rfl | hx'
      · exact ⟨w, hFw, hFl, hFreg, hFanc⟩
      · exact hA x hx'
    · intro q hq
      have hqh : ∀ m ∈ rest', q ≠ m ∧ q ≠ tmpPathOf m dev.id ∧
          q ≠ claimFileOf dev m := fun m hm => hq m (List.mem_cons_of_mem _ hm)
      obtain ⟨hq1, hq2, hq3⟩ := hq l (List.mem_cons_self l rest')
      rcases hB q hqh with hb | hb
      · rcases hframe q hq1 hq2 hq3 with ha | ha
        · exact Or.inl (hb.trans ha)
        · exact Or.inr ⟨ha.1, hb.trans ha.2.1,
            ⟨l, List.mem_cons_self l rest', ha.2.2⟩⟩
      · rcases hframe q hq1 hq2 hq3 with ha | ha
        · obtain ⟨m, hm, hmem⟩ := hb.2.2
          exact Or.inr ⟨ha.symm.trans hb.1, hb.2.1,
            ⟨m, List.mem_cons_of_mem _ hm, hmem⟩⟩
        · exact absurd (ha.2.1.symm.trans hb.1) (Option.some_ne_none _)
    · intro d hd
      rw [hC d (fun m hm => hd m (List.mem_cons_of_mem _ hm))]
      obtain ⟨hd1, hd2, hd3, hd4⟩ := hd l (List.mem_cons_self l rest')
      exact hchild d hd1 hd2 hd3 hd4

/-- C5: with no concurrent activity (`advId`) and identical inputs, on a
clean state (well-shaped non-overflowing distinct stable links, conflict-free
objects at the link, staging and claim paths, a real device node at
`devname`), running `udev_node_add` twice leaves the filesystem bit-identical
after the first run: the second run returns the very same state, each
published symlink already points at the same relative target (the second
`node_symlink` takes the `readlink`-matches `return 0` path, `preserved`,
and the per-link `link_update` is a no-op), and the claim index holds
exactly one claim file per adding device under each link's stack
directory. -/
theorem c5_addnode_idempotent (fs : Fs) (db : DB) (dev : Device)
    (mode : Option Nat) (futimens_r : Except Err Unit)
    (hperm : node_permissions_apply fs dev mode futimens_r = .ok ())
    (hdevreal : realNode (fs.find dev.devname) = true)
    (hcnon : topOk (fs.find (devNumPath dev)) = true)
    (hctmp : fs.find (tmpPathOf (devNumPath dev) dev.id) ≠ some .dir)
    (hnd : fs.keys.Nodup)
    (hlistnd : dev.devlinks.Nodup)
    (hdevn1 : dev.devname ≠ devNumPath dev)
    (hdevn2 : dev.devname ≠ tmpPathOf (devNumPath dev) dev.id)
    (hdevnh : dev.devname.head? = some "dev")
    (hlinks : ∀ l ∈ dev.devlinks, linkShape l = true ∧
      escape_path (renderRel (l.drop 1)) 4096 ≠ "" ∧
      topOk (fs.find l) = true ∧
      fs.find (tmpPathOf l dev.id) ≠ some .dir ∧
      (fs.find (claimFileOf dev l) = none ∨
        fs.find (claimFileOf dev l) = some .reg) ∧
      l ≠ dev.devname ∧ tmpPathOf l dev.id ≠ dev.devname ∧
      l ≠ devNumPath dev ∧ l ∉ ancestors (devNumPath dev) ∧
      l ≠ tmpPathOf (devNumPath dev) dev.id ∧
      tmpPathOf l dev.id ≠ devNumPath dev ∧
      tmpPathOf l dev.id ∉ ancestors (devNumPath dev) ∧
      tmpPathOf l dev.id ≠ tmpPathOf (devNumPath dev) dev.id)
    (hpair : ∀ l ∈ dev.devlinks, ∀ m ∈ dev.devlinks, l ≠ m →
      l ∉ ancestors m ∧ tmpPathOf l dev.id ∉ ancestors m ∧
      tmpPathOf l dev.id ≠ m ∧ tmpPathOf l dev.id ≠ tmpPathOf m dev.id ∧
      stackDirOf (l.drop 1) ≠ stackDirOf (m.drop 1)) :
    ∃ F, udev_node_add fs db dev mode futimens_r advId = (F, .ok ()) ∧
      udev_node_add F db dev mode futimens_r advId = (F, .ok ()) ∧
      (∀ l ∈ dev.devlinks, ∃ w,
        link_find_prioritized F db dev true (stackDirOf (l.drop 1)) = .ok w ∧
        F.find l = some (.sym (path_make_relative l.dropLast w)) ∧
        node_symlink F dev w l = (F, .preserved) ∧
        link_update F db dev l true advId = (F, .ok ()) ∧
        F.find (claimFileOf dev l) = some .reg ∧
        (childNames F (stackDirOf (l.drop 1))).count dev.id = 1) := by
  obtain ⟨fsc, resc, hnsc, _, _, hsymc, hframec, hchc, hndc⟩ :=
    node_symlink_establish fs dev dev.devname (devNumPath dev) hcnon hctmp
  have hcnonh : (devNumPath dev).head? = some "dev" := rfl
  have hctmph : (tmpPathOf (devNumPath dev) dev.id).head? = some "dev" := rfl
  have hdevname_c : fsc.find dev.devname = fs.find dev.devname := by
    rcases hframec dev.devname hdevn1 hdevn2 with h | h
    · exact h
    · rw [h.1] at hdevreal
      simp [realNode] at hdevreal
  have hall_c : ∀ l ∈ dev.devlinks, linkShape l = true ∧
      escape_path (renderRel (l.drop 1)) 4096 ≠ "" ∧
      topOk (fsc.find l) = true ∧
      fsc.find (tmpPathOf l dev.id) ≠ some .dir ∧
      (fsc.find (claimFileOf dev l) = none ∨
        fsc.find (claimFileOf dev l) = some .reg) := by
    intro l hl
    obtain ⟨hsh, henc, htop, htmp, hclaim, _, _, hlc1, hlc2, hlc3, htc1, htc2, htc3⟩ :=
      hlinks l hl
    have hcfh := claimFileOf_head dev l
    refine ⟨hsh, henc, ?_, ?_, ?_⟩
    · rcases hframec l hlc1 hlc3 with h | h
      · rw [h]; exact htop
      · exact absurd h.2.2 hlc2
    · rcases hframec _ htc1 htc3 with h | h
      · rw [h]; exact htmp
      · exact absurd h.2.2 htc2
    · rcases hframec (claimFileOf dev l)
          (Ne.symm (head_dev_ne_run hcnonh hcfh))
          (Ne.symm (head_dev_ne_run hctmph hcfh)) with h | h
      · rw [h]; exact hclaim
      · have h2 := (mem_ancestors_head h.2.2).trans hcnonh
        rw [hcfh] at h2
        simp at h2
  obtain ⟨F, hfold, hA, hB, hC, hD⟩ :=
    fold_add_run db dev dev.devlinks fsc hlistnd hall_c hpair (hndc hnd)
  have hFcnon : F.find (devNumPath dev) =
      some (.sym (path_make_relative (devNumPath dev).dropLast dev.devname)) := by
    have havoid : ∀ m ∈ dev.devlinks, devNumPath dev ≠ m ∧
        devNumPath dev ≠ tmpPathOf m dev.id ∧
        devNumPath dev ≠ claimFileOf dev m := by
      intro m hm
      obtain ⟨_, _, _, _, _, _, _, hlc1, _, _, htc1, _, _⟩ := hlinks m hm
      exact ⟨Ne.symm hlc1, Ne.symm htc1,
        head_dev_ne_run hcnonh (claimFileOf_head dev m)⟩
    rcases hB _ havoid with h | h
    · rw [h]; exact hsymc
    · rw [hsymc] at h
      cases h.1
  have hFdevname : F.find dev.devname = fs.find dev.devname := by
    have havoid : ∀ m ∈ dev.devlinks, dev.devname ≠ m ∧
        dev.devname ≠ tmpPathOf m dev.id ∧
        dev.devname ≠ claimFileOf dev m := by
      intro m hm
      obtain ⟨_, _, _, _, _, hne_dn, htne_dn, _, _, _, _, _, _⟩ := hlinks m hm
      exact ⟨Ne.symm hne_dn, Ne.symm htne_dn,
        head_dev_ne_run hdevnh (claimFileOf_head dev m)⟩
    rcases hB _ havoid with h | h
    · exact h.trans hdevname_c
    · have h2 := hdevname_c.symm.trans h.1
      rw [h2] at hdevreal
      simp [realNode] at hdevreal
  have hrun1 : udev_node_add fs db dev mode futimens_r advId = (F, .ok ()) := by
    simp only [udev_node_add, hperm, hnsc]
    rw [hfold]
  have hperm2 : node_permissions_apply F dev mode futimens_r = .ok () := by
    rw [node_permissions_apply_congr F fs dev mode futimens_r hFdevname]
    exact hperm
  have hns2 : node_symlink F dev dev.devname (devNumPath dev) = (F, .preserved) :=
    node_symlink_preserve F dev dev.devname (devNumPath dev) _ hFcnon rfl
  have hfold2 : dev.devlinks.foldl
      (fun acc m => (link_update acc db dev m true advId).1) F = F := by
    apply fold_add_settled
    intro l hl
    obtain ⟨w, hw, hsym, hreg, hanc⟩ := hA l hl
    obtain ⟨hsh, _, _, _, _⟩ := hall_c l hl
    exact ⟨hsh, hreg, hanc, w, hw, hsym⟩
  have hrun2 : udev_node_add F db dev mode futimens_r advId = (F, .ok ()) := by
    simp only [udev_node_add, hperm2, hns2]
    rw [hfold2]
  refine ⟨F, hrun1, hrun2, ?_⟩
  intro l hl
  obtain ⟨w, hw, hsym, hreg, hanc⟩ := hA l hl
  obtain ⟨hsh, henc, _, _, _⟩ := hall_c l hl
  exact ⟨w, hw, hsym, node_symlink_preserve F dev w l _ hsym rfl,
    link_update_add_settled F db dev l w hsh hreg hanc hw hsym, hreg,
    childNames_count_eq_one F _ dev.id hD (find_some_mem F _ _ hreg)⟩

/-- Witness for C5 on the two-link S1-style scenario: both runs of the add
succeed at the same state. -/
theorem c5_witness :
    ∃ F, udev_node_add fsIdem dbIdem devIdem none (.ok ()) advId =
        (F, .ok ()) ∧
      udev_node_add F dbIdem devIdem none (.ok ()) advId = (F, .ok ()) ∧
      (∀ l ∈ devIdem.devlinks, ∃ w,
        link_find_prioritized F dbIdem devIdem true (stackDirOf (l.drop 1)) =
          .ok w ∧
        F.find l = some (.sym (path_make_relative l.dropLast w)) ∧
        node_symlink F devIdem w l = (F, .preserved) ∧
        link_update F dbIdem devIdem l true advId = (F, .ok ()) ∧
        F.find (claimFileOf devIdem l) = some .reg ∧
        (childNames F (stackDirOf (l.drop 1))).count devIdem.id = 1) :=
  c5_addnode_idempotent fsIdem dbIdem devIdem none (.ok ())
    (by decide) (by decide) (by decide) (by decide) (by decide) (by decide)
    (by decide) (by decide) (by decide) (by decide) (by decide)
